import Mathlib

/-!
# Shallow embedding of the S3-FIFO cache engine

This file embeds the three layers of the S3-FIFO repository in Lean and
proves/refutes the frozen claims about it.

* `RingBuffer` embeds `src/src/lib/lib.rs`: a fixed-capacity deque over a
  backing array with `head`/`tail` indices modulo `capacity` and a `size`
  counter.  Rust's boxed slice is modelled as a `List` that always has length
  `capacity`; in-bounds indexing `buffer[i]` is modelled by `List.getD` with
  the `Inhabited` default (all reachable indices are in bounds, so the default
  is never surfaced).
* `FIFOCache` embeds `src/src/lib/fifo_cache.rs`: a `RingBuffer` of keys plus
  a `HashMap` from keys to `CacheObject`.  The hash map is modelled as an
  association list without duplicate keys (`htInsertHM` replaces in place,
  exactly like `HashMap::insert`); iteration order is never observed by the
  source, so the list representation is faithful.
* `S3FIFO` embeds `src/src/lib/s3fifo.rs`.  The `while` loops of `insert`,
  `evict_s` and `evict_m` are not structurally terminating (and one of them
  really can diverge), so they are modelled with an explicit fuel parameter
  and return `Option`: `none` means the fuel ran out, i.e. the loop had not
  finished after `fuel` iterations.  A result of `none` for *every* fuel is a
  proof that the Rust loop runs forever.
* Rust `f64` ratios are modelled as rationals; the only ratio used by the
  concrete traces below is `0.5`, which is exactly representable in `f64`, so
  the rational and floating computation agree there.
-/

/-- Embeds `CacheMetadata` (fifo_cache.rs line 8): a saturating frequency
counter.  `Default` gives `freq = 0`. -/
structure CacheMetadata where
  freq : Nat
deriving DecidableEq

instance : Inhabited CacheMetadata := ⟨⟨0⟩⟩

/-- Embeds `CacheMetadata::inc_freq` (fifo_cache.rs line 15):
`self.freq = min(self.freq + 1, 3)`. -/
def CacheMetadata.inc_freq (m : CacheMetadata) : CacheMetadata :=
  ⟨min (m.freq + 1) 3⟩

/-- Embeds `CacheMetadata::desc_freq` (fifo_cache.rs line 20):
`if self.freq != 0 { self.freq -= 1; }`. -/
def CacheMetadata.desc_freq (m : CacheMetadata) : CacheMetadata :=
  if m.freq ≠ 0 then ⟨m.freq - 1⟩ else m

/-- Embeds `CacheObject<V>` (fifo_cache.rs line 26): a value together with its
metadata. -/
structure CacheObject (V : Type) where
  value : V
  meta : CacheMetadata
deriving DecidableEq

/-- Embeds `CacheObject::inc_freq`. -/
def CacheObject.inc_freq (o : CacheObject V) : CacheObject V :=
  { o with meta := o.meta.inc_freq }

/-- Embeds `CacheObject::desc_freq`. -/
def CacheObject.desc_freq (o : CacheObject V) : CacheObject V :=
  { o with meta := o.meta.desc_freq }

/-- Embeds `CacheObject::set_value`. -/
def CacheObject.set_value (o : CacheObject V) (v : V) : CacheObject V :=
  { o with value := v }

/-- Embeds `CacheObject::get_value_copy`. -/
def CacheObject.get_value_copy (o : CacheObject V) : V :=
  o.value

/-- Embeds `CacheObject::get_freq`. -/
def CacheObject.get_freq (o : CacheObject V) : Nat :=
  o.meta.freq

/-- Embeds `CacheObject::get_meta_copy`. -/
def CacheObject.get_meta_copy (o : CacheObject V) : CacheMetadata :=
  o.meta

/-- Embeds `RingBuffer<T>` (lib.rs line 5).  `buffer` models the boxed slice
of length `capacity`. -/
structure RingBuffer (T : Type) where
  buffer : List T
  capacity : Nat
  head : Nat
  tail : Nat
  size : Nat
deriving DecidableEq

/-- Embeds `RingBuffer::new` (lib.rs line 14): `vec![T::default(); capacity]`
with all indices zero.  The Rust `assert!(capacity != 0)` is carried as a
hypothesis of the theorems that need it. -/
def RingBuffer.new (T : Type) [Inhabited T] (capacity : Nat) : RingBuffer T :=
  { buffer := List.replicate capacity default
    capacity
    head := 0
    tail := 0
    size := 0 }

/-- Embeds `RingBuffer::get_index` (lib.rs line 112): `orig_index %= capacity;
let offset = offset.rem_euclid(capacity as isize) as usize; (orig_index +
offset) % capacity`.  Lean's `Int` `%` is Euclidean remainder, matching
`rem_euclid`. -/
def RingBuffer.get_index (rb : RingBuffer T) (orig_index : Nat) (offset : Int) : Nat :=
  let oi := orig_index % rb.capacity
  let off := (offset % (rb.capacity : Int)).toNat
  (oi + off) % rb.capacity

/-- Embeds `RingBuffer::index_forward`. -/
def RingBuffer.index_forward (rb : RingBuffer T) (orig_index : Nat) : Nat :=
  rb.get_index orig_index 1

/-- Embeds `RingBuffer::index_backword`. -/
def RingBuffer.index_backword (rb : RingBuffer T) (orig_index : Nat) : Nat :=
  rb.get_index orig_index (-1)

/-- Embeds `RingBuffer::push_back` (lib.rs line 42): write at `tail`, advance
`tail`; if full, advance `head` (silent overwrite of the oldest element, size
unchanged), otherwise increment `size`. -/
def RingBuffer.push_back (rb : RingBuffer T) (value : T) : RingBuffer T :=
  let buf := rb.buffer.set rb.tail value
  let tl := rb.index_forward rb.tail
  if rb.size = rb.capacity then
    { rb with buffer := buf, tail := tl, head := rb.index_forward rb.head }
  else
    { rb with buffer := buf, tail := tl, size := rb.size + 1 }

/-- Embeds `RingBuffer::pop_front` (lib.rs line 66).  Returns the popped
value together with the mutated buffer. -/
def RingBuffer.pop_front [Inhabited T] (rb : RingBuffer T) :
    Option T × RingBuffer T :=
  if rb.size = 0 then (none, rb)
  else
    (some (rb.buffer.getD rb.head default),
      { rb with head := rb.index_forward rb.head, size := rb.size - 1 })

/-- Embeds `RingBuffer::pop_back` (lib.rs line 77). -/
def RingBuffer.pop_back [Inhabited T] (rb : RingBuffer T) :
    Option T × RingBuffer T :=
  if rb.size = 0 then (none, rb)
  else
    let tl := rb.index_backword rb.tail
    (some (rb.buffer.getD tl default), { rb with tail := tl, size := rb.size - 1 })

/-- Embeds `RingBuffer::peak_front` (lib.rs line 88): non-mutating read of
`buffer[head]`. -/
def RingBuffer.peak_front [Inhabited T] (rb : RingBuffer T) : Option T :=
  if rb.size = 0 then none else some (rb.buffer.getD rb.head default)

/-- Embeds `RingBuffer::peak_back` (lib.rs line 98): non-mutating read of
`buffer[tail]`.  (Note: `tail` is the slot one past the newest element.) -/
def RingBuffer.peak_back [Inhabited T] (rb : RingBuffer T) : Option T :=
  if rb.size = 0 then none else some (rb.buffer.getD rb.tail default)

/-- Embeds `RingBuffer::len` (lib.rs line 56). -/
def RingBuffer.len (rb : RingBuffer T) : Nat :=
  rb.size

/-- Modelled from the spec: `is_full` is called on the ring by
`FIFOCache::is_full` (fifo_cache.rs line 192) but its definition is absent
from the sources under `src/`.  The spec's data model (§3) fixes
`size ∈ [0, capacity]` with the buffer full exactly when `size == capacity`,
and §4.1 lists `is_full()` as an O(1) accessor. -/
def RingBuffer.is_full (rb : RingBuffer T) : Bool :=
  rb.size == rb.capacity

/-- Loop body of `RingBuffer::get_values` (lib.rs line 127): after the first
element has been pushed, walk forward, stopping as soon as the index reaches
`tail`.  The Rust `while i != tail` loop is modelled with fuel; under the
representation invariant the loop runs `size - 1` times, so `capacity` fuel
is always enough. -/
def RingBuffer.get_values_aux [Inhabited T] (rb : RingBuffer T) :
    Nat → Nat → List T
  | 0, _ => []
  | fuel + 1, i =>
    if i = rb.tail then []
    else rb.buffer.getD i default :: rb.get_values_aux fuel (rb.index_forward i)

/-- Embeds `RingBuffer::get_values` (lib.rs line 127): empty buffer gives
`[]`; otherwise push `buffer[head]`, then walk forward while the index
differs from `tail`. -/
def RingBuffer.get_values [Inhabited T] (rb : RingBuffer T) : List T :=
  if rb.size = 0 then []
  else rb.buffer.getD rb.head default ::
    rb.get_values_aux rb.capacity (rb.index_forward rb.head)

/-- Abstraction (not in the source): the logical contents of the ring, i.e.
the `size` slots starting at `head`, wrapping modulo `capacity`. -/
def RingBuffer.window [Inhabited T] (rb : RingBuffer T) : List T :=
  (List.range rb.size).map fun i => rb.buffer.getD ((rb.head + i) % rb.capacity) default

/-- Representation invariant of `RingBuffer` (spec §3): backing store has
length `capacity > 0`, `head < capacity`, `size ≤ capacity` and
`tail = (head + size) % capacity`. -/
def RingBuffer.WF (rb : RingBuffer T) : Prop :=
  rb.buffer.length = rb.capacity ∧ 0 < rb.capacity ∧ rb.head < rb.capacity ∧
    rb.size ≤ rb.capacity ∧ rb.tail = (rb.head + rb.size) % rb.capacity

/-- Helper (not in the source): push a whole list, left to right. -/
def RingBuffer.pushAll (rb : RingBuffer T) (l : List T) : RingBuffer T :=
  l.foldl RingBuffer.push_back rb

/-- Association-list model of `HashMap::get`. -/
def htLookup [DecidableEq K] : List (K × CacheObject V) → K → Option (CacheObject V)
  | [], _ => none
  | (k', o) :: rest, k => if k' = k then some o else htLookup rest k

/-- Association-list model of `HashMap::contains_key`. -/
def htContains [DecidableEq K] (l : List (K × CacheObject V)) (k : K) : Bool :=
  (htLookup l k).isSome

/-- Association-list model of `HashMap::insert`: replace in place when the
key is present, append otherwise. -/
def htInsertHM [DecidableEq K] (l : List (K × CacheObject V)) (k : K)
    (o : CacheObject V) : List (K × CacheObject V) :=
  if htContains l k then l.map (fun p => if p.1 = k then (k, o) else p)
  else l ++ [(k, o)]

/-- Association-list model of `HashMap::entry(k).and_modify(f)`: apply `f` to
the entry for `k` if present, otherwise do nothing. -/
def htModify [DecidableEq K] (l : List (K × CacheObject V)) (k : K)
    (f : CacheObject V → CacheObject V) : List (K × CacheObject V) :=
  l.map fun p => if p.1 = k then (p.1, f p.2) else p

/-- Association-list model of the removal half of `HashMap::remove_entry`. -/
def htErase [DecidableEq K] (l : List (K × CacheObject V)) (k : K) :
    List (K × CacheObject V) :=
  l.filter fun p => decide (p.1 ≠ k)

/-- Embeds `FIFOCache<K, V>` (fifo_cache.rs line 81): ring of keys plus the
hash table. -/
structure FIFOCache (K V : Type) where
  rb : RingBuffer K
  hashtable : List (K × CacheObject V)
deriving DecidableEq

/-- Embeds `FIFOCache::new` (fifo_cache.rs line 93). -/
def FIFOCache.new (K V : Type) [Inhabited K] (capacity : Nat) : FIFOCache K V :=
  { rb := RingBuffer.new K capacity, hashtable := [] }

/-- Embeds `FIFOCache::update` (fifo_cache.rs line 104): replace the value if
the key is present (`inc_freq` is commented out in the source), no-op
otherwise. -/
def FIFOCache.update [DecidableEq K] (c : FIFOCache K V) (key : K) (value : V) :
    FIFOCache K V :=
  if htContains c.hashtable key then
    { c with hashtable := htModify c.hashtable key fun o => o.set_value value }
  else c

/-- Embeds `FIFOCache::insert_with_meta` (fifo_cache.rs line 130): hash-table
insert followed by `rb.push_back(key)` (which silently overwrites when the
ring is full). -/
def FIFOCache.insert_with_meta [DecidableEq K] (c : FIFOCache K V) (key : K)
    (value : V) (meta : CacheMetadata) : FIFOCache K V :=
  { c with
    hashtable := htInsertHM c.hashtable key { value, meta }
    rb := c.rb.push_back key }

/-- Embeds `FIFOCache::insert` (fifo_cache.rs line 125): insert with default
metadata (`freq = 0`). -/
def FIFOCache.insert [DecidableEq K] (c : FIFOCache K V) (key : K) (value : V) :
    FIFOCache K V :=
  c.insert_with_meta key value ⟨0⟩

/-- Embeds `FIFOCache::evict` (fifo_cache.rs line 139): pop the oldest key
from the ring; if the ring yielded a key, remove and return its hash-table
entry. -/
def FIFOCache.evict [DecidableEq K] [Inhabited K] (c : FIFOCache K V) :
    Option (K × CacheObject V) × FIFOCache K V :=
  match c.rb.pop_front with
  | (some key, rb') =>
    match htLookup c.hashtable key with
    | some o => (some (key, o), { rb := rb', hashtable := htErase c.hashtable key })
    | none => (none, { c with rb := rb' })
  | (none, rb') => (none, { c with rb := rb' })

/-- Embeds `FIFOCache::inc_freq` (fifo_cache.rs line 152):
`hashtable.entry(key).and_modify(inc_freq)`. -/
def FIFOCache.inc_freq [DecidableEq K] (c : FIFOCache K V) (key : K) :
    FIFOCache K V :=
  { c with hashtable := htModify c.hashtable key CacheObject.inc_freq }

/-- Embeds `FIFOCache::find` (fifo_cache.rs line 163): increment the entry's
frequency (no-op on a miss), then look it up.  The returned borrow is
modelled as a copy of the (already incremented) entry, paired with the
mutated cache. -/
def FIFOCache.find [DecidableEq K] (c : FIFOCache K V) (key : K) :
    Option (CacheObject V) × FIFOCache K V :=
  let c' := c.inc_freq key
  (htLookup c'.hashtable key, c')

/-- Embeds `FIFOCache::find_mut` (fifo_cache.rs line 171): same state change
as `find`; the mutable borrow is modelled by having callers rewrite the entry
explicitly. -/
def FIFOCache.find_mut [DecidableEq K] (c : FIFOCache K V) (key : K) :
    Option (CacheObject V) × FIFOCache K V :=
  c.find key

/-- Embeds `FIFOCache::len` (fifo_cache.rs line 179): the ring's size. -/
def FIFOCache.len (c : FIFOCache K V) : Nat :=
  c.rb.len

/-- Embeds `FIFOCache::empty` (fifo_cache.rs line 184). -/
def FIFOCache.empty (c : FIFOCache K V) : Bool :=
  c.len == 0

/-- Embeds `FIFOCache::is_full` (fifo_cache.rs line 191): delegates to the
ring. -/
def FIFOCache.is_full (c : FIFOCache K V) : Bool :=
  c.rb.is_full

/-- Embeds `S3FIFO<K, V>` (s3fifo.rs line 4).  The `f64` field
`small_cache_capacity_ratio` is modelled as a rational. -/
structure S3FIFO (K V : Type) where
  cache_size : Nat
  ratioField : ℚ
  small_cache_capacity : Nat
  main_cache_capacity : Nat
  ghost_cache_capacity : Nat
  s_queue : FIFOCache K V
  m_queue : FIFOCache K V
  g_queue : FIFOCache K V
  size : Nat
deriving DecidableEq

/-- Embeds `S3FIFO::new` (s3fifo.rs line 23):
`small_cache_capacity = ((cache_size as f64) * small_cache_ratio) as usize`
(`as usize` truncates; the ratio is positive, so this is the floor),
`main_cache_capacity = cache_size - small_cache_capacity`, and the ghost
queue reuses the main capacity.  The `f64` ratio is modelled as a rational;
for ratios exactly representable in `f64` (such as the `0.5` used in the
concrete traces below) the two computations agree.  For a non-negative
rational `p/q` in lowest terms, the floor of `n * p/q` is the integer
division `(n * p) / q`, which is how the truncation is written here (this
keeps the definition kernel-computable).  The two `assert!`s are carried as
hypotheses by the theorems that need them. -/
def S3FIFO.new (K V : Type) [Inhabited K] (cache_size : Nat) (ratioQ : ℚ) :
    S3FIFO K V :=
  let small_cache_capacity := ((cache_size : Int) * ratioQ.num).toNat / ratioQ.den
  let main_cache_capacity := cache_size - small_cache_capacity
  let ghost_cache_capacity := main_cache_capacity
  { cache_size
    ratioField := ratioQ
    small_cache_capacity
    main_cache_capacity
    ghost_cache_capacity
    s_queue := FIFOCache.new K V small_cache_capacity
    m_queue := FIFOCache.new K V main_cache_capacity
    g_queue := FIFOCache.new K V ghost_cache_capacity
    size := 0 }

/-- Embeds `S3FIFO::new_with_default_ratio` (s3fifo.rs line 47).  The Rust
body is `Self::new(cache_size, 0.1);` with a trailing semicolon and a unit
return type: the constructed cache is dropped and the function returns `()`.
The model is faithful to that, constructing and discarding the cache. -/
def S3FIFO.new_with_default_ratio (K V : Type) [Inhabited K] (cache_size : Nat) :
    Unit :=
  let _ := S3FIFO.new K V cache_size (mkRat 1 10)
  ()

/-- Embeds `S3FIFO::get` (s3fifo.rs line 59): probe S (whose `find` bumps the
frequency on a hit), then M; the ghost queue is not probed. -/
def S3FIFO.get [DecidableEq K] (c : S3FIFO K V) (key : K) :
    Option V × S3FIFO K V :=
  match c.s_queue.find key with
  | (some obj, s') => (some obj.value, { c with s_queue := s' })
  | (none, s') =>
    match c.m_queue.find key with
    | (some obj, m') => (some obj.value, { c with s_queue := s', m_queue := m' })
    | (none, m') => (none, { c with s_queue := s', m_queue := m' })

/-- Embeds `S3FIFO::is_full` (s3fifo.rs line 102): `size == cache_size`. -/
def S3FIFO.is_full (c : S3FIFO K V) : Bool :=
  c.size == c.cache_size

/-- Embeds `S3FIFO::evict_m` (s3fifo.rs line 158): loop until one true
eviction or M is empty; entries with positive frequency are reinserted with
the counter decremented.  The `while` loop is modelled with fuel. -/
def S3FIFO.evict_m [DecidableEq K] [Inhabited K] :
    Nat → S3FIFO K V → Option (S3FIFO K V)
  | 0, _ => none
  | fuel + 1, c =>
    if c.m_queue.empty then some c
    else
      match c.m_queue.evict with
      | (some (key, obj), m') =>
        if obj.get_freq > 0 then
          let meta := obj.get_meta_copy.desc_freq
          S3FIFO.evict_m fuel
            { c with m_queue := m'.insert_with_meta key obj.get_value_copy meta }
        else some { c with m_queue := m' }
      | (none, m') => S3FIFO.evict_m fuel { c with m_queue := m' }

/-- Embeds `S3FIFO::evict_s` (s3fifo.rs line 141): loop until one eviction to
the ghost queue or S is empty; entries with `freq > 1` are promoted to M
(running `evict_m` if that fills M) and do not count as the eviction.  The
`while` loop is modelled with fuel. -/
def S3FIFO.evict_s [DecidableEq K] [Inhabited K] :
    Nat → S3FIFO K V → Option (S3FIFO K V)
  | 0, _ => none
  | fuel + 1, c =>
    if c.s_queue.empty then some c
    else
      match c.s_queue.evict with
      | (some (key, obj), s') =>
        if obj.get_freq > 1 then
          let c1 := { c with
            s_queue := s'
            m_queue := c.m_queue.insert key obj.get_value_copy }
          if c1.m_queue.is_full then
            (S3FIFO.evict_m fuel c1).bind (S3FIFO.evict_s fuel)
          else S3FIFO.evict_s fuel c1
        else
          some { c with
            s_queue := s'
            g_queue := c.g_queue.insert key obj.get_value_copy }
      | (none, s') => S3FIFO.evict_s fuel { c with s_queue := s' }

/-- Embeds `S3FIFO::evict` (s3fifo.rs line 130): `evict_s` when S is full,
then `evict_m` when M is full. -/
def S3FIFO.evict [DecidableEq K] [Inhabited K] (fuel : Nat) (c : S3FIFO K V) :
    Option (S3FIFO K V) :=
  (if c.s_queue.is_full then S3FIFO.evict_s fuel c else some c).bind fun c1 =>
    if c1.m_queue.is_full then S3FIFO.evict_m fuel c1 else some c1

/-- The `while self.is_full() { self.evict() }` loop at the top of
`S3FIFO::insert` (s3fifo.rs line 117), modelled with fuel. -/
def S3FIFO.evictLoop [DecidableEq K] [Inhabited K] :
    Nat → S3FIFO K V → Option (S3FIFO K V)
  | 0, c => if c.is_full then none else some c
  | fuel + 1, c =>
    if c.is_full then (S3FIFO.evict fuel c).bind (S3FIFO.evictLoop fuel)
    else some c

/-- Embeds `S3FIFO::insert` (s3fifo.rs line 115): evict while full, then
admit into M when the key is found in the ghost queue (whose `find` bumps the
ghost entry's frequency) and into S otherwise; finally increment `size`. -/
def S3FIFO.insert [DecidableEq K] [Inhabited K] (c : S3FIFO K V) (fuel : Nat)
    (key : K) (value : V) : Option (S3FIFO K V) :=
  (S3FIFO.evictLoop fuel c).bind fun c1 =>
    match c1.g_queue.find key with
    | (some _, g') =>
      some { c1 with
        g_queue := g'
        m_queue := c1.m_queue.insert key value
        size := c1.size + 1 }
    | (none, g') =>
      some { c1 with
        g_queue := g'
        s_queue := c1.s_queue.insert key value
        size := c1.size + 1 }

/-- Embeds `S3FIFO::put` (s3fifo.rs line 84): overwrite in place through
`find_mut` when the key is in S or M (note `find_mut` increments the
frequency), otherwise fall through to `insert`. -/
def S3FIFO.put [DecidableEq K] [Inhabited K] (c : S3FIFO K V) (fuel : Nat)
    (key : K) (value : V) : Option (S3FIFO K V) :=
  match c.s_queue.find_mut key with
  | (some _, s') =>
    some { c with
      s_queue := { s' with
        hashtable := htModify s'.hashtable key fun o => o.set_value value } }
  | (none, s') =>
    match c.m_queue.find_mut key with
    | (some _, m') =>
      some { c with
        s_queue := s'
        m_queue := { m' with
          hashtable := htModify m'.hashtable key fun o => o.set_value value } }
    | (none, m') =>
      S3FIFO.insert { c with s_queue := s', m_queue := m' } fuel key value

/-- Helper (not in the source): iterate `get` on the same key `n` times,
keeping only the state. -/
def S3FIFO.getN [DecidableEq K] (c : S3FIFO K V) (key : K) : Nat → S3FIFO K V
  | 0 => c
  | n + 1 => ((c.getN key n).get key).2

/-- The operations a `FIFOCache` client can issue (spec §8, invariant 1). -/
inductive FOp (K V : Type) where
  | insert (k : K) (v : V)
  | insert_with_meta (k : K) (v : V) (m : CacheMetadata)
  | evict
  | find (k : K)
  | find_mut (k : K)
  | update (k : K) (v : V)

/-- Run one `FIFOCache` operation, keeping only the state. -/
def applyFOp [DecidableEq K] [Inhabited K] (c : FIFOCache K V) :
    FOp K V → FIFOCache K V
  | .insert k v => c.insert k v
  | .insert_with_meta k v m => c.insert_with_meta k v m
  | .evict => c.evict.2
  | .find k => (c.find k).2
  | .find_mut k => (c.find_mut k).2
  | .update k v => c.update k v

/-- Run a sequence of `FIFOCache` operations. -/
def runFOps [DecidableEq K] [Inhabited K] (c : FIFOCache K V) :
    List (FOp K V) → FIFOCache K V
  | [] => c
  | op :: rest => runFOps (applyFOp c op) rest

/-- The hypothesis of claim C6 exactly as stated: the sequence never calls
`insert` (or `insert_with_meta`) while `is_full()` holds. -/
def validFOpsFull [DecidableEq K] [Inhabited K] (c : FIFOCache K V) :
    List (FOp K V) → Bool
  | [] => true
  | op :: rest =>
    (match op with
     | .insert _ _ => !c.is_full
     | .insert_with_meta _ _ _ => !c.is_full
     | _ => true) && validFOpsFull (applyFOp c op) rest

/-- The amended hypothesis: additionally, `insert` is never called with a key
already present in the mapping. -/
def validFOps [DecidableEq K] [Inhabited K] (c : FIFOCache K V) :
    List (FOp K V) → Bool
  | [] => true
  | op :: rest =>
    (match op with
     | .insert k _ => !c.is_full && !htContains c.hashtable k
     | .insert_with_meta k _ _ => !c.is_full && !htContains c.hashtable k
     | _ => true) && validFOps (applyFOp c op) rest

/-- Keys of the modelled hash table, in insertion order. -/
def keysOf (l : List (K × CacheObject V)) : List K :=
  l.map Prod.fst

/-- Invariant of a well-used `FIFOCache` (spec §3): well-formed ring, no
duplicate keys in ring or mapping, matching sizes, and matching key sets. -/
def CacheInv [DecidableEq K] [Inhabited K] (c : FIFOCache K V) : Prop :=
  c.rb.WF ∧ c.rb.window.Nodup ∧ (keysOf c.hashtable).Nodup ∧
    c.rb.size = c.hashtable.length ∧
    ∀ k, k ∈ c.rb.window ↔ (htLookup c.hashtable k).isSome

/-- Scenario-C trace (spec §8): `S3FIFO::new(2, 0.5)` (so `Cs = Cm = Cg = 1`)
followed by `put(1, 1)` and `put(2, 2)`.  Neither put needs to evict, so any
fuel works; 5 is plenty. -/
def putTrace : Option (S3FIFO ℕ ℕ) :=
  ((S3FIFO.new ℕ ℕ 2 (mkRat 1 2)).put 5 1 1).bind fun c => c.put 5 2 2

/-- A concrete, not-full `S3FIFO` state whose ghost queue holds key `1`
(with value payload `7`), used to witness the ghost-admission theorem. -/
def ghostState : S3FIFO ℕ ℕ :=
  { S3FIFO.new ℕ ℕ 4 (mkRat 1 2) with g_queue := (FIFOCache.new ℕ ℕ 2).insert 1 7 }

/-- A concrete `S3FIFO` state whose small queue holds key `1` with value `7`
and frequency `0`, used to witness the frequency-saturation and
duplicate-put theorems. -/
def smallState : S3FIFO ℕ ℕ :=
  { S3FIFO.new ℕ ℕ 4 (mkRat 1 2) with
    s_queue := (FIFOCache.new ℕ ℕ 2).insert 1 7
    size := 1 }

/-! ## List helpers -/

theorem getD_set_self (l : List T) (j : Nat) (a d : T) (h : j < l.length) :
    (l.set j a).getD j d = a := by
  induction l generalizing j with
  | nil => simp at h
  | cons x xs ih =>
    cases j with
    | zero => rfl
    | succ j => simpa using ih j (by simpa using h)

theorem getD_set_ne (l : List T) (i j : Nat) (a d : T) (h : i ≠ j) :
    (l.set i a).getD j d = l.getD j d := by
  induction l generalizing i j with
  | nil => rfl
  | cons x xs ih =>
    cases i with
    | zero =>
      cases j with
      | zero => exact absurd rfl h
      | succ j => rfl
    | succ i =>
      cases j with
      | zero => rfl
      | succ j => simpa using ih i j (fun hh => h (by omega))

/-! ## Association-list lemmas -/

theorem htLookup_append [DecidableEq K] (l₁ l₂ : List (K × CacheObject V)) (k : K) :
    htLookup (l₁ ++ l₂) k =
      match htLookup l₁ k with
      | some o => some o
      | none => htLookup l₂ k := by
  induction l₁ with
  | nil => rfl
  | cons p rest ih =>
    by_cases h : p.1 = k
    · simp [htLookup, h]
    · simp only [List.cons_append, htLookup, if_neg h]
      exact ih

theorem htLookup_cons [DecidableEq K] (a : K) (o : CacheObject V)
    (rest : List (K × CacheObject V)) (k : K) :
    htLookup ((a, o) :: rest) k = if a = k then some o else htLookup rest k := rfl

theorem htLookup_htModify [DecidableEq K] (l : List (K × CacheObject V)) (k j : K)
    (f : CacheObject V → CacheObject V) :
    htLookup (htModify l k f) j =
      if j = k then (htLookup l k).map f else htLookup l j := by
  induction l with
  | nil => simp [htModify, htLookup]
  | cons p rest ih =>
    obtain ⟨a, o⟩ := p
    simp only [htModify, List.map_cons] at ih ⊢
    by_cases hak : a = k
    · subst hak
      rw [if_pos rfl]
      by_cases hja : j = a
      · subst hja
        simp [htLookup_cons]
      · have haj : ¬ a = j := fun hh => hja hh.symm
        simp [htLookup_cons, haj, hja] at ih ⊢
        simpa [hja] using ih
    · rw [if_neg hak]
      by_cases hja : j = a
      · subst hja
        have hjk : ¬ j = k := hak
        simp [htLookup_cons, hjk]
      · have haj : ¬ a = j := fun hh => hja hh.symm
        simp only [htLookup_cons, if_neg haj]
        by_cases hjk : j = k
        · simp [hjk, hak] at ih ⊢
          simpa [hjk] using ih
        · simpa [hjk] using ih

theorem htModify_absent [DecidableEq K] (l : List (K × CacheObject V)) (k : K)
    (f : CacheObject V → CacheObject V) (h : htLookup l k = none) :
    htModify l k f = l := by
  induction l with
  | nil => rfl
  | cons p rest ih =>
    obtain ⟨a, o⟩ := p
    by_cases hak : a = k
    · simp [htLookup_cons, hak] at h
    · simp only [htLookup_cons, if_neg hak] at h
      simp [htModify, hak] at ih ⊢
      exact ih h

theorem length_htModify [DecidableEq K] (l : List (K × CacheObject V)) (k : K)
    (f : CacheObject V → CacheObject V) :
    (htModify l k f).length = l.length := by
  simp [htModify]

theorem htLookup_htInsertHM_self [DecidableEq K] (l : List (K × CacheObject V))
    (k : K) (o : CacheObject V) :
    htLookup (htInsertHM l k o) k = some o := by
  unfold htInsertHM
  by_cases h : htContains l k = true
  · rw [if_pos h]
    unfold htContains at h
    induction l with
    | nil => simp [htLookup] at h
    | cons p rest ih =>
      obtain ⟨a, o'⟩ := p
      by_cases hak : a = k
      · subst hak
        rw [List.map_cons, if_pos rfl, htLookup_cons, if_pos rfl]
      · simp only [htLookup_cons, if_neg hak] at h
        rw [List.map_cons, if_neg hak, htLookup_cons, if_neg hak]
        exact ih h
  · rw [if_neg h]
    unfold htContains at h
    rw [htLookup_append]
    cases hl : htLookup l k with
    | some o' => rw [hl] at h; simp at h
    | none => simp [htLookup]

theorem htLookup_htInsertHM_ne [DecidableEq K] (l : List (K × CacheObject V))
    (k j : K) (o : CacheObject V) (h : j ≠ k) :
    htLookup (htInsertHM l k o) j = htLookup l j := by
  unfold htInsertHM
  by_cases hc : htContains l k = true
  · rw [if_pos hc]
    induction l with
    | nil => rfl
    | cons p rest ih =>
      obtain ⟨a, o'⟩ := p
      by_cases hak : a = k
      · subst hak
        rw [List.map_cons, if_pos rfl, htLookup_cons, htLookup_cons]
        have haj : ¬ a = j := fun hh => h (hh ▸ rfl)
        rw [if_neg haj, if_neg haj]
        by_cases hrest : htContains rest a = true
        · exact ih hrest
        · have : htModify rest a (fun _ => o) = rest := by
            apply htModify_absent
            unfold htContains at hrest
            cases hr : htLookup rest a with
            | some x => rw [hr] at hrest; simp at hrest
            | none => rfl
          calc htLookup (rest.map fun p => if p.1 = a then (a, o) else p) j
              = htLookup (htModify rest a fun _ => o) j := by
                unfold htModify
                congr 1
                apply List.map_congr_left
                intro p _
                by_cases hpa : p.1 = a
                · simp [hpa]
                · simp [hpa]
            _ = htLookup rest j := by rw [this]
      · rw [List.map_cons, if_neg hak, htLookup_cons, htLookup_cons]
        unfold htContains at hc
        rw [htLookup_cons, if_neg hak] at hc
        by_cases haj : a = j
        · rw [if_pos haj, if_pos haj]
        · rw [if_neg haj, if_neg haj]
          exact ih hc
  · rw [if_neg hc, htLookup_append]
    cases hl : htLookup l j with
    | some o' => rfl
    | none =>
      have hkj : ¬ k = j := fun hh => h hh.symm
      simp [htLookup_cons, hkj, htLookup]

theorem length_htInsertHM [DecidableEq K] (l : List (K × CacheObject V))
    (k : K) (o : CacheObject V) :
    (htInsertHM l k o).length =
      if htContains l k then l.length else l.length + 1 := by
  unfold htInsertHM
  by_cases h : htContains l k = true
  · simp [h]
  · simp [h]

theorem htLookup_htErase [DecidableEq K] (l : List (K × CacheObject V)) (k j : K) :
    htLookup (htErase l k) j = if j = k then none else htLookup l j := by
  induction l with
  | nil => simp [htErase, htLookup]
  | cons p rest ih =>
    obtain ⟨a, o⟩ := p
    by_cases hak : a = k
    · subst hak
      have hhead : (decide (((a, o) : K × CacheObject V).1 ≠ a)) = false := by simp
      rw [htErase, List.filter_cons, hhead]
      simp only [Bool.false_eq_true, if_false]
      rw [show List.filter (fun p => decide (p.1 ≠ a)) rest = htErase rest a from rfl, ih]
      by_cases hja : j = a
      · simp [hja]
      · have haj : ¬ a = j := fun hh => hja hh.symm
        simp [htLookup_cons, hja, haj]
    · have hhead : (decide (((a, o) : K × CacheObject V).1 ≠ k)) = true := by simp [hak]
      rw [htErase, List.filter_cons, hhead]
      simp only [if_true]
      by_cases hja : j = a
      · subst hja
        have hjk : ¬ j = k := hak
        simp [htLookup_cons, hjk]
      · have haj : ¬ a = j := fun hh => hja hh.symm
        rw [htLookup_cons, if_neg haj,
          show List.filter (fun p => decide (p.1 ≠ k)) rest = htErase rest k from rfl, ih,
          htLookup_cons, if_neg haj]

/-! ## RingBuffer index arithmetic -/

theorem index_forward_eq (rb : RingBuffer T) (i : Nat) (hc : 0 < rb.capacity) :
    rb.index_forward i = (i + 1) % rb.capacity := by
  simp only [RingBuffer.index_forward, RingBuffer.get_index]
  have h1 : ((1 : Int) % (rb.capacity : Int)).toNat = 1 % rb.capacity := by
    rw [show (1 : Int) = ((1 : Nat) : Int) from rfl, ← Int.natCast_mod, Int.toNat_natCast]
  rw [h1, ← Nat.add_mod]

theorem index_backword_eq (rb : RingBuffer T) (i : Nat) (hc : 0 < rb.capacity) :
    rb.index_backword i = (i + (rb.capacity - 1)) % rb.capacity := by
  simp only [RingBuffer.index_backword, RingBuffer.get_index]
  have hc' : (0 : Int) < (rb.capacity : Int) := by exact_mod_cast hc
  have h1 : ((-1 : Int) % (rb.capacity : Int)) = ((rb.capacity - 1 : Nat) : Int) := by
    have h2 : ((-1 : Int) + (rb.capacity : Int) * 1) % (rb.capacity : Int)
        = (-1 : Int) % (rb.capacity : Int) :=
      Int.add_mul_emod_self_left (-1) ((rb.capacity : Int)) 1
    have h3 : ((-1 : Int) + (rb.capacity : Int) * 1) = ((rb.capacity : Int) - 1) := by ring
    have h4 : ((rb.capacity : Int) - 1) % (rb.capacity : Int) = (rb.capacity : Int) - 1 :=
      Int.emod_eq_of_lt (by omega) (by omega)
    rw [← h2, h3, h4]
    omega
  rw [h1, Int.toNat_natCast]
  have h5 : (rb.capacity - 1) % rb.capacity = rb.capacity - 1 :=
    Nat.mod_eq_of_lt (by omega)
  conv_lhs => rw [← h5]
  rw [← Nat.add_mod]

theorem addmod_cancel (a c i j : Nat) (hc : 0 < c)
    (heq : (a + i) % c = (a + j) % c) : i % c = j % c :=
  Nat.ModEq.add_left_cancel' a heq

/-! ## RingBuffer operation lemmas -/

theorem window_length [Inhabited T] (rb : RingBuffer T) :
    rb.window.length = rb.size := by
  simp [RingBuffer.window]

theorem WF_new (T : Type) [Inhabited T] (c : Nat) (hc : 0 < c) :
    (RingBuffer.new T c).WF :=
  ⟨by simp [RingBuffer.new], hc, hc, Nat.zero_le _, by simp [RingBuffer.new]⟩

theorem window_new (T : Type) [Inhabited T] (c : Nat) :
    (RingBuffer.new T c).window = [] := by
  simp [RingBuffer.window, RingBuffer.new]

theorem push_back_size (rb : RingBuffer T) (v : T) :
    (rb.push_back v).size = if rb.size = rb.capacity then rb.size else rb.size + 1 := by
  unfold RingBuffer.push_back
  split
  · rfl
  · rfl

theorem push_back_capacity (rb : RingBuffer T) (v : T) :
    (rb.push_back v).capacity = rb.capacity := by
  unfold RingBuffer.push_back
  split
  · rfl
  · rfl

theorem pop_front_size [Inhabited T] (rb : RingBuffer T) :
    (rb.pop_front).2.size = rb.size - 1 := by
  unfold RingBuffer.pop_front
  split
  · rename_i h
    show rb.size = rb.size - 1
    omega
  · rfl

theorem pop_front_capacity [Inhabited T] (rb : RingBuffer T) :
    (rb.pop_front).2.capacity = rb.capacity := by
  unfold RingBuffer.pop_front
  split
  · rfl
  · rfl

theorem WF_push_back (rb : RingBuffer T) (v : T) (hwf : rb.WF) :
    (rb.push_back v).WF := by
  obtain ⟨hlen, hc, hh, hsz, ht⟩ := hwf
  unfold RingBuffer.push_back
  by_cases hfull : rb.size = rb.capacity
  · rw [if_pos hfull]
    have htail : rb.tail = rb.head := by
      rw [ht, hfull, Nat.add_mod_right, Nat.mod_eq_of_lt hh]
    refine ⟨by simpa using hlen, hc, ?_, hsz, ?_⟩
    · rw [index_forward_eq rb _ hc]
      exact Nat.mod_lt _ hc
    · rw [index_forward_eq rb _ hc, index_forward_eq rb _ hc, htail, hfull,
        Nat.mod_add_mod]
      conv_rhs => rw [Nat.add_mod_right]
  · rw [if_neg hfull]
    refine ⟨by simpa using hlen, hc, hh, by show rb.size + 1 ≤ rb.capacity; omega, ?_⟩
    show rb.index_forward rb.tail = (rb.head + (rb.size + 1)) % rb.capacity
    rw [index_forward_eq rb _ hc, ht, Nat.mod_add_mod]
    congr 1

theorem WF_pop_front [Inhabited T] (rb : RingBuffer T) (hwf : rb.WF) :
    (rb.pop_front).2.WF := by
  obtain ⟨hlen, hc, hh, hsz, ht⟩ := hwf
  unfold RingBuffer.pop_front
  by_cases h0 : rb.size = 0
  · rw [if_pos h0]
    exact ⟨hlen, hc, hh, hsz, ht⟩
  · rw [if_neg h0]
    refine ⟨hlen, hc, ?_, by show rb.size - 1 ≤ rb.capacity; omega, ?_⟩
    · show rb.index_forward rb.head < rb.capacity
      rw [index_forward_eq rb _ hc]
      exact Nat.mod_lt _ hc
    · show rb.tail = (rb.index_forward rb.head + (rb.size - 1)) % rb.capacity
      rw [index_forward_eq rb _ hc, Nat.mod_add_mod, ht]
      congr 1
      omega

theorem window_push_back_not_full [Inhabited T] (rb : RingBuffer T) (v : T)
    (hwf : rb.WF) (hlt : rb.size < rb.capacity) :
    (rb.push_back v).window = rb.window ++ [v] := by
  obtain ⟨hlen, hc, hh, hsz, ht⟩ := hwf
  unfold RingBuffer.push_back
  rw [if_neg (Nat.ne_of_lt hlt)]
  unfold RingBuffer.window
  simp only [List.range_succ, List.map_append, List.map_cons, List.map_nil]
  congr 1
  · apply List.map_congr_left
    intro i hi
    rw [List.mem_range] at hi
    apply getD_set_ne
    intro heq
    have h2 : i % rb.capacity = rb.size % rb.capacity :=
      addmod_cancel rb.head rb.capacity i rb.size hc (heq.symm.trans ht)
    rw [Nat.mod_eq_of_lt (by omega), Nat.mod_eq_of_lt hlt] at h2
    omega
  · rw [← ht]
    rw [getD_set_self]
    rw [hlen, ht]
    exact Nat.mod_lt _ hc

theorem window_push_back_full [Inhabited T] (rb : RingBuffer T) (v : T)
    (hwf : rb.WF) (hfull : rb.size = rb.capacity) :
    (rb.push_back v).window = rb.window.drop 1 ++ [v] := by
  obtain ⟨hlen, hc, hh, hsz, ht⟩ := hwf
  have htail : rb.tail = rb.head := by
    rw [ht, hfull, Nat.add_mod_right, Nat.mod_eq_of_lt hh]
  unfold RingBuffer.push_back
  rw [if_pos hfull]
  unfold RingBuffer.window
  simp only
  rw [index_forward_eq rb _ hc]
  obtain ⟨k, hk⟩ : ∃ k, rb.size = k + 1 := ⟨rb.size - 1, by omega⟩
  have hkc : rb.capacity = k + 1 := by omega
  rw [hk]
  conv_lhs => rw [List.range_succ]
  conv_rhs => rw [List.range_succ_eq_map]
  rw [List.map_append, List.map_cons, List.map_nil, List.map_cons,
    List.drop_succ_cons, List.drop_zero, List.map_map]
  congr 1
  · apply List.map_congr_left
    intro i hi
    rw [List.mem_range] at hi
    show (rb.buffer.set rb.tail v).getD (((rb.head + 1) % rb.capacity + i) % rb.capacity) default
        = rb.buffer.getD ((rb.head + Nat.succ i) % rb.capacity) default
    have hidx : ((rb.head + 1) % rb.capacity + i) % rb.capacity
        = (rb.head + Nat.succ i) % rb.capacity := by
      rw [Nat.mod_add_mod]
      congr 1
      omega
    rw [hidx]
    apply getD_set_ne
    rw [htail]
    intro heq
    have heq' : (rb.head + 0) % rb.capacity = (rb.head + Nat.succ i) % rb.capacity := by
      rw [Nat.add_zero, Nat.mod_eq_of_lt hh]
      exact heq
    have h2 := addmod_cancel rb.head rb.capacity 0 (Nat.succ i) hc heq'
    rw [Nat.zero_mod, Nat.mod_eq_of_lt (by omega : Nat.succ i < rb.capacity)] at h2
    omega
  · have hidx : ((rb.head + 1) % rb.capacity + k) % rb.capacity = rb.head := by
      rw [Nat.mod_add_mod, show rb.head + 1 + k = rb.head + rb.capacity by omega,
        Nat.add_mod_right, Nat.mod_eq_of_lt hh]
    rw [hidx, ← htail, getD_set_self]
    rw [hlen, htail]
    exact hh

theorem pop_front_fst [Inhabited T] (rb : RingBuffer T) (hwf : rb.WF) :
    (rb.pop_front).1 = rb.window.head? := by
  obtain ⟨hlen, hc, hh, hsz, ht⟩ := hwf
  unfold RingBuffer.pop_front
  by_cases h0 : rb.size = 0
  · rw [if_pos h0]
    unfold RingBuffer.window
    rw [h0]
    rfl
  · rw [if_neg h0]
    unfold RingBuffer.window
    obtain ⟨k, hk⟩ : ∃ k, rb.size = k + 1 := ⟨rb.size - 1, by omega⟩
    rw [hk, List.range_succ_eq_map, List.map_cons]
    simp only [List.head?_cons]
    rw [Nat.add_zero, Nat.mod_eq_of_lt hh]

theorem pop_front_window [Inhabited T] (rb : RingBuffer T) (hwf : rb.WF) :
    (rb.pop_front).2.window = rb.window.drop 1 := by
  obtain ⟨hlen, hc, hh, hsz, ht⟩ := hwf
  unfold RingBuffer.pop_front
  by_cases h0 : rb.size = 0
  · rw [if_pos h0]
    unfold RingBuffer.window
    rw [h0]
    rfl
  · rw [if_neg h0]
    unfold RingBuffer.window
    simp only
    obtain ⟨k, hk⟩ : ∃ k, rb.size = k + 1 := ⟨rb.size - 1, by omega⟩
    rw [hk, Nat.add_sub_cancel, List.range_succ_eq_map, List.map_cons,
      List.drop_succ_cons, List.drop_zero, List.map_map]
    apply List.map_congr_left
    intro i hi
    rw [index_forward_eq rb _ hc, Nat.mod_add_mod]
    have : rb.head + 1 + i = rb.head + (i + 1) := by omega
    rw [this]
    rfl

/-! ## get_values walks the window -/

theorem get_values_aux_spec [Inhabited T] (rb : RingBuffer T) (hwf : rb.WF) (d : Nat) :
    ∀ j fuel, 1 ≤ j → j + d = rb.size → d ≤ fuel →
      rb.get_values_aux fuel ((rb.head + j) % rb.capacity) =
        (List.range d).map
          (fun i => rb.buffer.getD ((rb.head + j + i) % rb.capacity) default) := by
  obtain ⟨hlen, hc, hh, hsz, ht⟩ := hwf
  induction d with
  | zero =>
    intro j fuel hj hsum _
    have hidx : (rb.head + j) % rb.capacity = rb.tail := by
      rw [ht]
      congr 1
      omega
    cases fuel with
    | zero => rfl
    | succ f =>
      simp only [RingBuffer.get_values_aux, if_pos hidx, List.range_zero, List.map_nil]
  | succ d ih =>
    intro j fuel hj hsum hfuel
    have hjcap : j < rb.capacity := by omega
    have hidx : (rb.head + j) % rb.capacity ≠ rb.tail := by
      rw [ht]
      intro heq
      have h2 := addmod_cancel rb.head rb.capacity j rb.size hc heq
      rw [Nat.mod_eq_of_lt hjcap] at h2
      rcases Nat.lt_or_ge rb.size rb.capacity with hlt | hge
      · rw [Nat.mod_eq_of_lt hlt] at h2
        omega
      · have hcap : rb.size = rb.capacity := le_antisymm hsz hge
        rw [hcap, Nat.mod_self] at h2
        omega
    cases fuel with
    | zero => omega
    | succ f =>
      simp only [RingBuffer.get_values_aux, if_neg hidx]
      have hfwd : rb.index_forward ((rb.head + j) % rb.capacity)
          = (rb.head + (j + 1)) % rb.capacity := by
        rw [index_forward_eq rb _ hc, Nat.mod_add_mod, Nat.add_assoc]
      rw [hfwd, ih (j + 1) f (by omega) (by omega) (by omega)]
      rw [List.range_succ_eq_map, List.map_cons, List.map_map]
      refine congrArg₂ List.cons ?_ ?_
      · show rb.buffer.getD ((rb.head + j) % rb.capacity) default
          = rb.buffer.getD ((rb.head + j + 0) % rb.capacity) default
        rw [Nat.add_zero]
      · apply List.map_congr_left
        intro i hi
        show rb.buffer.getD ((rb.head + (j + 1) + i) % rb.capacity) default
          = rb.buffer.getD ((rb.head + j + Nat.succ i) % rb.capacity) default
        have hidx2 : rb.head + (j + 1) + i = rb.head + j + Nat.succ i := by omega
        rw [hidx2]

theorem get_values_eq_window [Inhabited T] (rb : RingBuffer T) (hwf : rb.WF) :
    rb.get_values = rb.window := by
  rcases Nat.eq_zero_or_pos rb.size with h0 | hpos
  · unfold RingBuffer.get_values RingBuffer.window
    rw [if_pos h0, h0]
    simp
  · have hc : 0 < rb.capacity := hwf.2.1
    have hh : rb.head < rb.capacity := hwf.2.2.1
    have hsz : rb.size ≤ rb.capacity := hwf.2.2.2.1
    unfold RingBuffer.get_values
    rw [if_neg (by omega)]
    rw [index_forward_eq rb _ hc]
    obtain ⟨k, hk⟩ : ∃ k, rb.size = k + 1 := ⟨rb.size - 1, by omega⟩
    have haux := get_values_aux_spec rb hwf k 1 rb.capacity (le_refl 1) (by omega) (by omega)
    rw [show (rb.head + 1) % rb.capacity = (rb.head + 1) % rb.capacity from rfl] at haux
    rw [haux]
    unfold RingBuffer.window
    rw [hk, List.range_succ_eq_map, List.map_cons, List.map_map]
    congr 1
    · rw [Nat.add_zero, Nat.mod_eq_of_lt hh]
    · apply List.map_congr_left
      intro i hi
      show rb.buffer.getD ((rb.head + 1 + i) % rb.capacity) default
        = rb.buffer.getD ((rb.head + Nat.succ i) % rb.capacity) default
      congr 2
      omega

/-! ## Pushing many elements -/

theorem pushAll_spec [Inhabited T] (l : List T) :
    ∀ rb : RingBuffer T, rb.WF → rb.size + l.length ≤ rb.capacity →
      (rb.pushAll l).WF ∧ (rb.pushAll l).size = rb.size + l.length ∧
        (rb.pushAll l).capacity = rb.capacity ∧
        (rb.pushAll l).window = rb.window ++ l := by
  induction l with
  | nil =>
    intro rb hwf _
    exact ⟨hwf, by simp [RingBuffer.pushAll], by simp [RingBuffer.pushAll],
      by simp [RingBuffer.pushAll]⟩
  | cons x xs ih =>
    intro rb hwf hle
    rw [List.length_cons] at hle
    have hlt : rb.size < rb.capacity := by omega
    have hwf' := WF_push_back rb x hwf
    have hsz : (rb.push_back x).size = rb.size + 1 := by
      rw [push_back_size, if_neg (Nat.ne_of_lt hlt)]
    have hcap : (rb.push_back x).capacity = rb.capacity := push_back_capacity rb x
    have hwin := window_push_back_not_full rb x hwf hlt
    have hstep : rb.pushAll (x :: xs) = (rb.push_back x).pushAll xs := rfl
    obtain ⟨h1, h2, h3, h4⟩ := ih (rb.push_back x) hwf' (by rw [hsz, hcap]; omega)
    refine ⟨h1, ?_, ?_, ?_⟩
    · rw [hstep, h2, hsz, List.length_cons]
      omega
    · rw [hstep, h3, hcap]
    · rw [hstep, h4, hwin, List.append_assoc]
      rfl

/-! ## Key-set lemmas -/

theorem htLookup_isSome_iff_mem [DecidableEq K] (l : List (K × CacheObject V)) (k : K) :
    (htLookup l k).isSome = true ↔ k ∈ keysOf l := by
  induction l with
  | nil => simp [htLookup, keysOf]
  | cons p rest ih =>
    obtain ⟨a, o⟩ := p
    by_cases hak : a = k
    · subst hak
      simp [htLookup_cons, keysOf]
    · have hka : ¬ k = a := fun hh => hak hh.symm
      simp only [htLookup_cons, if_neg hak, keysOf, List.map_cons, List.mem_cons]
      rw [ih]
      unfold keysOf
      constructor
      · intro h
        exact Or.inr h
      · rintro (h | h)
        · exact absurd h hka
        · exact h

theorem htLookup_eq_none_iff [DecidableEq K] (l : List (K × CacheObject V)) (k : K) :
    htLookup l k = none ↔ k ∉ keysOf l := by
  rw [← htLookup_isSome_iff_mem]
  cases h : htLookup l k with
  | none => simp
  | some o => simp

theorem htErase_sublist [DecidableEq K] (l : List (K × CacheObject V)) (k : K) :
    (htErase l k).Sublist l :=
  List.filter_sublist l

theorem htErase_absent [DecidableEq K] (l : List (K × CacheObject V)) (k : K)
    (h : htLookup l k = none) : htErase l k = l := by
  induction l with
  | nil => rfl
  | cons p rest ih =>
    obtain ⟨a, o⟩ := p
    by_cases hak : a = k
    · simp [htLookup_cons, hak] at h
    · simp only [htLookup_cons, if_neg hak] at h
      unfold htErase at ih ⊢
      rw [List.filter_cons]
      simp only [show (decide (((a, o) : K × CacheObject V).1 ≠ k)) = true by simp [hak],
        if_true]
      rw [ih h]

theorem length_htErase_present [DecidableEq K] (l : List (K × CacheObject V))
    (k : K) (o : CacheObject V) (hnd : (keysOf l).Nodup) (hl : htLookup l k = some o) :
    (htErase l k).length = l.length - 1 := by
  induction l with
  | nil => simp [htLookup] at hl
  | cons p rest ih =>
    obtain ⟨a, o'⟩ := p
    simp only [keysOf, List.map_cons, List.nodup_cons] at hnd
    by_cases hak : a = k
    · subst hak
      unfold htErase
      rw [List.filter_cons]
      simp only [show (decide (((a, o') : K × CacheObject V).1 ≠ a)) = false by simp,
        Bool.false_eq_true, if_false]
      have hrest : htLookup rest a = none := by
        rw [htLookup_eq_none_iff]
        exact hnd.1
      rw [show List.filter (fun p => decide (p.1 ≠ a)) rest = htErase rest a from rfl,
        htErase_absent rest a hrest]
      simp
    · simp only [htLookup_cons, if_neg hak] at hl
      unfold htErase
      rw [List.filter_cons]
      simp only [show (decide (((a, o') : K × CacheObject V).1 ≠ k)) = true by simp [hak],
        if_true]
      rw [show List.filter (fun p => decide (p.1 ≠ k)) rest = htErase rest k from rfl]
      simp only [List.length_cons]
      rw [ih hnd.2 hl]
      have : 1 ≤ rest.length := by
        cases rest with
        | nil => simp [htLookup] at hl
        | cons q qs => simp
      omega

theorem keysOf_htModify [DecidableEq K] (l : List (K × CacheObject V)) (k : K)
    (f : CacheObject V → CacheObject V) : keysOf (htModify l k f) = keysOf l := by
  unfold keysOf htModify
  rw [List.map_map]
  apply List.map_congr_left
  intro p _
  by_cases hpk : p.1 = k
  · simp [hpk]
  · simp [hpk]

/-! ## FIFOCache invariant preservation -/

theorem cacheInv_new (K V : Type) [DecidableEq K] [Inhabited K] (cap : Nat)
    (hc : 0 < cap) : CacheInv (FIFOCache.new K V cap) := by
  refine ⟨WF_new K cap hc, ?_, ?_, ?_, ?_⟩
  · rw [show (FIFOCache.new K V cap).rb = RingBuffer.new K cap from rfl, window_new]
    exact List.nodup_nil
  · simp [FIFOCache.new, keysOf]
  · simp [FIFOCache.new, RingBuffer.new]
  · intro k
    rw [show (FIFOCache.new K V cap).rb = RingBuffer.new K cap from rfl, window_new]
    simp [FIFOCache.new, htLookup]

theorem cacheInv_insert_with_meta [DecidableEq K] [Inhabited K] (c : FIFOCache K V)
    (k : K) (v : V) (m : CacheMetadata) (hinv : CacheInv c)
    (hfull : c.is_full = false) (hmem : htContains c.hashtable k = false) :
    CacheInv (c.insert_with_meta k v m) := by
  obtain ⟨hwf, hnd, hknd, hlen, hiff⟩ := hinv
  have hlt : c.rb.size < c.rb.capacity := by
    unfold FIFOCache.is_full RingBuffer.is_full at hfull
    have h1 : c.rb.size ≠ c.rb.capacity := by simpa using hfull
    have h2 : c.rb.size ≤ c.rb.capacity := hwf.2.2.2.1
    omega
  have hlook : htLookup c.hashtable k = none := by
    unfold htContains at hmem
    cases h : htLookup c.hashtable k with
    | none => rfl
    | some o => rw [h] at hmem; simp at hmem
  have hkwin : k ∉ c.rb.window := by
    intro hmem'
    have := (hiff k).mp hmem'
    rw [hlook] at this
    simp at this
  have hkkeys : k ∉ keysOf c.hashtable := (htLookup_eq_none_iff _ _).mp hlook
  have hwin := window_push_back_not_full c.rb k hwf hlt
  refine ⟨WF_push_back c.rb k hwf, ?_, ?_, ?_, ?_⟩
  · show (c.rb.push_back k).window.Nodup
    rw [hwin]
    refine List.Nodup.append hnd (List.nodup_singleton k) ?_
    intro a ha hb
    rw [List.mem_singleton] at hb
    subst hb
    exact hkwin ha
  · show (keysOf (htInsertHM c.hashtable k { value := v, meta := m })).Nodup
    unfold htInsertHM
    rw [if_neg (by simpa using hmem)]
    unfold keysOf
    rw [List.map_append]
    refine List.Nodup.append hknd (by simp) ?_
    intro a ha hb
    simp at hb
    subst hb
    exact hkkeys ha
  · show (c.rb.push_back k).size = (htInsertHM c.hashtable k { value := v, meta := m }).length
    rw [push_back_size, if_neg (Nat.ne_of_lt hlt), length_htInsertHM, if_neg (by simpa using hmem)]
    omega
  · intro j
    show j ∈ (c.rb.push_back k).window ↔
      (htLookup (htInsertHM c.hashtable k { value := v, meta := m }) j).isSome = true
    rw [hwin, List.mem_append, List.mem_singleton]
    by_cases hjk : j = k
    · subst hjk
      rw [htLookup_htInsertHM_self]
      simp
    · rw [htLookup_htInsertHM_ne _ _ _ _ hjk]
      rw [← hiff j]
      simp [hjk]

theorem cacheInv_evict [DecidableEq K] [Inhabited K] (c : FIFOCache K V)
    (hinv : CacheInv c) : CacheInv c.evict.2 := by
  obtain ⟨hwf, hnd, hknd, hlen, hiff⟩ := hinv
  by_cases h0 : c.rb.size = 0
  · have hpop : c.rb.pop_front = (none, c.rb) := by
      unfold RingBuffer.pop_front
      rw [if_pos h0]
    unfold FIFOCache.evict
    rw [hpop]
    exact ⟨hwf, hnd, hknd, hlen, hiff⟩
  · have hpop : c.rb.pop_front = (some (c.rb.buffer.getD c.rb.head default),
        { c.rb with head := c.rb.index_forward c.rb.head, size := c.rb.size - 1 }) := by
      unfold RingBuffer.pop_front
      rw [if_neg h0]
    have hfst := pop_front_fst c.rb hwf
    have hwin := pop_front_window c.rb hwf
    have hwf' := WF_pop_front c.rb hwf
    have hsz := pop_front_size c.rb
    rw [hpop] at hfst hwin hwf' hsz
    dsimp only at hfst hwin hwf' hsz
    obtain ⟨w0, rest, hw⟩ : ∃ w0 rest, c.rb.window = w0 :: rest := by
      cases hww : c.rb.window with
      | nil =>
        have := window_length c.rb
        rw [hww] at this
        simp at this
        omega
      | cons w0 rest => exact ⟨w0, rest, rfl⟩
    have hk0 : c.rb.buffer.getD c.rb.head default = w0 := by
      rw [hw] at hfst
      simpa using hfst
    have hmem0 : w0 ∈ c.rb.window := by
      rw [hw]
      simp
    obtain ⟨o, ho⟩ : ∃ o, htLookup c.hashtable w0 = some o := by
      have := (hiff w0).mp hmem0
      cases hl : htLookup c.hashtable w0 with
      | none => rw [hl] at this; simp at this
      | some o => exact ⟨o, rfl⟩
    have hw0rest : w0 ∉ rest := by
      rw [hw] at hnd
      exact (List.nodup_cons.mp hnd).1
    unfold FIFOCache.evict
    rw [hpop]
    dsimp only
    rw [hk0, ho]
    dsimp only
    rw [hw] at hwin
    simp only [List.drop_succ_cons, List.drop_zero] at hwin
    refine ⟨hwf', ?_, ?_, ?_, ?_⟩
    · show ({ c.rb with head := c.rb.index_forward c.rb.head, size := c.rb.size - 1 } : RingBuffer K).window.Nodup
      rw [hwin]
      rw [hw] at hnd
      exact (List.nodup_cons.mp hnd).2
    · show (keysOf (htErase c.hashtable w0)).Nodup
      exact hknd.sublist (List.Sublist.map Prod.fst (htErase_sublist c.hashtable w0))
    · show ({ c.rb with head := c.rb.index_forward c.rb.head, size := c.rb.size - 1 } : RingBuffer K).size = (htErase c.hashtable w0).length
      rw [length_htErase_present c.hashtable w0 o hknd ho]
      show c.rb.size - 1 = c.hashtable.length - 1
      omega
    · intro j
      show j ∈ ({ c.rb with head := c.rb.index_forward c.rb.head, size := c.rb.size - 1 } : RingBuffer K).window ↔ (htLookup (htErase c.hashtable w0) j).isSome = true
      rw [hwin, htLookup_htErase]
      by_cases hjw : j = w0
      · subst hjw
        simp [hw0rest]
      · rw [if_neg hjw, ← hiff j, hw]
        simp [hjw]

theorem cacheInv_inc_freq [DecidableEq K] [Inhabited K] (c : FIFOCache K V) (k : K)
    (hinv : CacheInv c) : CacheInv (c.inc_freq k) := by
  obtain ⟨hwf, hnd, hknd, hlen, hiff⟩ := hinv
  refine ⟨hwf, hnd, ?_, ?_, ?_⟩
  · show (keysOf (htModify c.hashtable k CacheObject.inc_freq)).Nodup
    rw [keysOf_htModify]
    exact hknd
  · show c.rb.size = (htModify c.hashtable k CacheObject.inc_freq).length
    rw [length_htModify]
    exact hlen
  · intro j
    show j ∈ c.rb.window ↔ (htLookup (htModify c.hashtable k CacheObject.inc_freq) j).isSome = true
    rw [htLookup_htModify]
    by_cases hjk : j = k
    · subst hjk
      rw [if_pos rfl, hiff j]
      cases htLookup c.hashtable j with
      | none => simp
      | some o => simp
    · rw [if_neg hjk]
      exact hiff j

theorem cacheInv_update [DecidableEq K] [Inhabited K] (c : FIFOCache K V) (k : K)
    (v : V) (hinv : CacheInv c) : CacheInv (c.update k v) := by
  obtain ⟨hwf, hnd, hknd, hlen, hiff⟩ := hinv
  unfold FIFOCache.update
  by_cases h : htContains c.hashtable k = true
  · rw [if_pos h]
    refine ⟨hwf, hnd, ?_, ?_, ?_⟩
    · show (keysOf (htModify c.hashtable k fun o => o.set_value v)).Nodup
      rw [keysOf_htModify]
      exact hknd
    · show c.rb.size = (htModify c.hashtable k fun o => o.set_value v).length
      rw [length_htModify]
      exact hlen
    · intro j
      show j ∈ c.rb.window ↔
        (htLookup (htModify c.hashtable k fun o => o.set_value v) j).isSome = true
      rw [htLookup_htModify]
      by_cases hjk : j = k
      · subst hjk
        rw [if_pos rfl, hiff j]
        cases htLookup c.hashtable j with
        | none => simp
        | some o => simp
      · rw [if_neg hjk]
        exact hiff j
  · rw [if_neg h]
    exact ⟨hwf, hnd, hknd, hlen, hiff⟩

theorem cacheInv_applyFOp [DecidableEq K] [Inhabited K] (c : FIFOCache K V)
    (op : FOp K V) (hinv : CacheInv c)
    (hok : (match op with
      | .insert k _ => !c.is_full && !htContains c.hashtable k
      | .insert_with_meta k _ _ => !c.is_full && !htContains c.hashtable k
      | _ => true) = true) :
    CacheInv (applyFOp c op) := by
  cases op with
  | insert k v =>
    rw [Bool.and_eq_true, Bool.not_eq_true'] at hok
    exact cacheInv_insert_with_meta c k v ⟨0⟩ hinv hok.1 (by simpa using hok.2)
  | insert_with_meta k v m =>
    rw [Bool.and_eq_true, Bool.not_eq_true'] at hok
    exact cacheInv_insert_with_meta c k v m hinv hok.1 (by simpa using hok.2)
  | evict => exact cacheInv_evict c hinv
  | find k => exact cacheInv_inc_freq c k hinv
  | find_mut k => exact cacheInv_inc_freq c k hinv
  | update k v => exact cacheInv_update c k v hinv

theorem cacheInv_runFOps [DecidableEq K] [Inhabited K] (ops : List (FOp K V)) :
    ∀ c : FIFOCache K V, CacheInv c → validFOps c ops = true →
      CacheInv (runFOps c ops) := by
  induction ops with
  | nil => intro c hinv _; exact hinv
  | cons op rest ih =>
    intro c hinv hvalid
    unfold validFOps at hvalid
    rw [Bool.and_eq_true] at hvalid
    exact ih (applyFOp c op) (cacheInv_applyFOp c op hinv hvalid.1) hvalid.2

/-! ## FIFOCache find characterization -/

theorem find_eq [DecidableEq K] (c : FIFOCache K V) (k : K) :
    c.find k = ((htLookup c.hashtable k).map CacheObject.inc_freq, c.inc_freq k) := by
  unfold FIFOCache.find
  refine congrArg₂ Prod.mk ?_ rfl
  show htLookup (c.inc_freq k).hashtable k = (htLookup c.hashtable k).map CacheObject.inc_freq
  unfold FIFOCache.inc_freq
  rw [show ({ c with hashtable := htModify c.hashtable k CacheObject.inc_freq } :
    FIFOCache K V).hashtable = htModify c.hashtable k CacheObject.inc_freq from rfl]
  rw [htLookup_htModify, if_pos rfl]

theorem find_mut_eq [DecidableEq K] (c : FIFOCache K V) (k : K) :
    c.find_mut k = ((htLookup c.hashtable k).map CacheObject.inc_freq, c.inc_freq k) :=
  find_eq c k

theorem inc_freq_absent [DecidableEq K] (c : FIFOCache K V) (k : K)
    (h : htLookup c.hashtable k = none) : c.inc_freq k = c := by
  unfold FIFOCache.inc_freq
  rw [htModify_absent c.hashtable k _ h]

theorem find_absent [DecidableEq K] (c : FIFOCache K V) (k : K)
    (h : htLookup c.hashtable k = none) : c.find k = (none, c) := by
  rw [find_eq, h, inc_freq_absent c k h]
  rfl

/-! ## S3FIFO eviction never changes the aggregate size -/

theorem evict_m_preserves [DecidableEq K] [Inhabited K] (fuel : Nat) :
    ∀ c c' : S3FIFO K V, S3FIFO.evict_m fuel c = some c' →
      c'.size = c.size ∧ c'.cache_size = c.cache_size := by
  induction fuel with
  | zero =>
    intro c c' h
    simp [S3FIFO.evict_m] at h
  | succ fuel ih =>
    intro c c' h
    unfold S3FIFO.evict_m at h
    by_cases hemp : c.m_queue.empty = true
    · rw [if_pos hemp] at h
      cases h
      exact ⟨rfl, rfl⟩
    · rw [if_neg hemp] at h
      rcases hev : c.m_queue.evict with ⟨o, m'⟩
      rw [hev] at h
      cases o with
      | some ko =>
        obtain ⟨key, obj⟩ := ko
        dsimp only at h
        by_cases hfr : obj.get_freq > 0
        · rw [if_pos hfr] at h
          have hres := ih _ _ h
          exact ⟨hres.1, hres.2⟩
        · rw [if_neg hfr] at h
          cases h
          exact ⟨rfl, rfl⟩
      | none =>
        dsimp only at h
        have hres := ih _ _ h
        exact ⟨hres.1, hres.2⟩

theorem evict_s_preserves [DecidableEq K] [Inhabited K] (fuel : Nat) :
    ∀ c c' : S3FIFO K V, S3FIFO.evict_s fuel c = some c' →
      c'.size = c.size ∧ c'.cache_size = c.cache_size := by
  induction fuel with
  | zero =>
    intro c c' h
    simp [S3FIFO.evict_s] at h
  | succ fuel ih =>
    intro c c' h
    unfold S3FIFO.evict_s at h
    by_cases hemp : c.s_queue.empty = true
    · rw [if_pos hemp] at h
      cases h
      exact ⟨rfl, rfl⟩
    · rw [if_neg hemp] at h
      rcases hev : c.s_queue.evict with ⟨o, s'⟩
      rw [hev] at h
      cases o with
      | some ko =>
        obtain ⟨key, obj⟩ := ko
        dsimp only at h
        by_cases hfr : obj.get_freq > 1
        · rw [if_pos hfr] at h
          by_cases hmf : ({ c with
              s_queue := s'
              m_queue := c.m_queue.insert key obj.get_value_copy } :
                S3FIFO K V).m_queue.is_full = true
          · rw [if_pos hmf, Option.bind_eq_some] at h
            obtain ⟨mid, hmid, hrest⟩ := h
            have h1 := evict_m_preserves fuel _ mid hmid
            have h2 := ih mid c' hrest
            exact ⟨by rw [h2.1, h1.1], by rw [h2.2, h1.2]⟩
          · rw [if_neg hmf] at h
            have hres := ih _ _ h
            exact ⟨hres.1, hres.2⟩
        · rw [if_neg hfr] at h
          cases h
          exact ⟨rfl, rfl⟩
      | none =>
        dsimp only at h
        have hres := ih _ _ h
        exact ⟨hres.1, hres.2⟩

theorem evict_preserves [DecidableEq K] [Inhabited K] (fuel : Nat)
    (c c' : S3FIFO K V) (h : S3FIFO.evict fuel c = some c') :
    c'.size = c.size ∧ c'.cache_size = c.cache_size := by
  unfold S3FIFO.evict at h
  rw [Option.bind_eq_some] at h
  obtain ⟨mid, hmid, hrest⟩ := h
  have h1 : mid.size = c.size ∧ mid.cache_size = c.cache_size := by
    by_cases hsf : c.s_queue.is_full = true
    · rw [if_pos hsf] at hmid
      exact evict_s_preserves fuel c mid hmid
    · rw [if_neg hsf] at hmid
      cases hmid
      exact ⟨rfl, rfl⟩
  have h2 : c'.size = mid.size ∧ c'.cache_size = mid.cache_size := by
    by_cases hmf : mid.m_queue.is_full = true
    · rw [if_pos hmf] at hrest
      exact evict_m_preserves fuel mid c' hrest
    · rw [if_neg hmf] at hrest
      cases hrest
      exact ⟨rfl, rfl⟩
  exact ⟨by rw [h2.1, h1.1], by rw [h2.2, h1.2]⟩

theorem evictLoop_none_of_full [DecidableEq K] [Inhabited K] (fuel : Nat) :
    ∀ c : S3FIFO K V, c.is_full = true → S3FIFO.evictLoop fuel c = none := by
  induction fuel with
  | zero =>
    intro c h
    unfold S3FIFO.evictLoop
    rw [if_pos h]
  | succ fuel ih =>
    intro c h
    unfold S3FIFO.evictLoop
    rw [if_pos h]
    cases hev : S3FIFO.evict fuel c with
    | none => rfl
    | some c1 =>
      show S3FIFO.evictLoop fuel c1 = none
      apply ih
      have hpres := evict_preserves fuel c c1 hev
      unfold S3FIFO.is_full at h ⊢
      rw [hpres.1, hpres.2]
      exact h

theorem evictLoop_not_full [DecidableEq K] [Inhabited K] (fuel : Nat)
    (c : S3FIFO K V) (h : c.is_full = false) :
    S3FIFO.evictLoop fuel c = some c := by
  cases fuel with
  | zero =>
    unfold S3FIFO.evictLoop
    rw [h]
    rfl
  | succ fuel =>
    unfold S3FIFO.evictLoop
    rw [h]
    rfl

/-! ## S3FIFO get and put paths -/

theorem get_miss [DecidableEq K] (c : S3FIFO K V) (k : K)
    (hs : htLookup c.s_queue.hashtable k = none)
    (hm : htLookup c.m_queue.hashtable k = none) :
    c.get k = (none, c) := by
  unfold S3FIFO.get
  rw [find_absent c.s_queue k hs]
  rw [find_absent c.m_queue k hm]

theorem get_hit_s [DecidableEq K] (c : S3FIFO K V) (k : K) (obj : CacheObject V)
    (h : htLookup c.s_queue.hashtable k = some obj) :
    c.get k = (some obj.value, { c with s_queue := c.s_queue.inc_freq k }) := by
  unfold S3FIFO.get
  rw [find_eq, h]
  rfl

theorem get_hit_m [DecidableEq K] (c : S3FIFO K V) (k : K) (obj : CacheObject V)
    (hs : htLookup c.s_queue.hashtable k = none)
    (hm : htLookup c.m_queue.hashtable k = some obj) :
    c.get k = (some obj.value, { c with m_queue := c.m_queue.inc_freq k }) := by
  unfold S3FIFO.get
  rw [find_absent c.s_queue k hs]
  rw [find_eq, hm]
  rfl

theorem put_hit_s [DecidableEq K] [Inhabited K] (c : S3FIFO K V) (fuel : Nat)
    (k : K) (v : V) (obj : CacheObject V)
    (h : htLookup c.s_queue.hashtable k = some obj) :
    c.put fuel k v = some { c with s_queue := { c.s_queue with
      hashtable := htModify (htModify c.s_queue.hashtable k CacheObject.inc_freq) k
        fun o => o.set_value v } } := by
  unfold S3FIFO.put
  rw [find_mut_eq, h]
  rfl

theorem put_hit_m [DecidableEq K] [Inhabited K] (c : S3FIFO K V) (fuel : Nat)
    (k : K) (v : V) (obj : CacheObject V)
    (hs : htLookup c.s_queue.hashtable k = none)
    (hm : htLookup c.m_queue.hashtable k = some obj) :
    c.put fuel k v = some { c with m_queue := { c.m_queue with
      hashtable := htModify (htModify c.m_queue.hashtable k CacheObject.inc_freq) k
        fun o => o.set_value v } } := by
  unfold S3FIFO.put
  rw [find_mut_eq, hs, inc_freq_absent c.s_queue k hs]
  rw [find_mut_eq, hm]
  rfl

theorem put_miss [DecidableEq K] [Inhabited K] (c : S3FIFO K V) (fuel : Nat)
    (k : K) (v : V)
    (hs : htLookup c.s_queue.hashtable k = none)
    (hm : htLookup c.m_queue.hashtable k = none) :
    c.put fuel k v = S3FIFO.insert c fuel k v := by
  unfold S3FIFO.put
  rw [find_mut_eq, hs, inc_freq_absent c.s_queue k hs]
  rw [find_mut_eq, hm, inc_freq_absent c.m_queue k hm]
  rfl

theorem put_none_of_full [DecidableEq K] [Inhabited K] (c : S3FIFO K V) (fuel : Nat)
    (k : K) (v : V) (hfull : c.is_full = true)
    (hs : htLookup c.s_queue.hashtable k = none)
    (hm : htLookup c.m_queue.hashtable k = none) :
    c.put fuel k v = none := by
  rw [put_miss c fuel k v hs hm]
  unfold S3FIFO.insert
  rw [evictLoop_none_of_full fuel c hfull]
  rfl

theorem put_ghost [DecidableEq K] [Inhabited K] (c : S3FIFO K V) (fuel : Nat)
    (k : K) (v : V) (obj : CacheObject V)
    (hs : htLookup c.s_queue.hashtable k = none)
    (hm : htLookup c.m_queue.hashtable k = none)
    (hfull : c.is_full = false)
    (hg : htLookup c.g_queue.hashtable k = some obj) :
    c.put fuel k v = some { c with
      g_queue := c.g_queue.inc_freq k
      m_queue := c.m_queue.insert k v
      size := c.size + 1 } := by
  rw [put_miss c fuel k v hs hm]
  unfold S3FIFO.insert
  rw [evictLoop_not_full fuel c hfull, Option.some_bind, find_eq, hg]
  rfl

theorem put_fresh [DecidableEq K] [Inhabited K] (c : S3FIFO K V) (fuel : Nat)
    (k : K) (v : V)
    (hs : htLookup c.s_queue.hashtable k = none)
    (hm : htLookup c.m_queue.hashtable k = none)
    (hfull : c.is_full = false)
    (hg : htLookup c.g_queue.hashtable k = none) :
    c.put fuel k v = some { c with
      s_queue := c.s_queue.insert k v
      size := c.size + 1 } := by
  rw [put_miss c fuel k v hs hm]
  unfold S3FIFO.insert
  rw [evictLoop_not_full fuel c hfull, Option.some_bind, find_absent c.g_queue k hg]

/-! ## Iterated hits saturate the frequency counter -/

theorem getN_s_lookup [DecidableEq K] (c : S3FIFO K V) (k : K) (obj : CacheObject V)
    (h : htLookup c.s_queue.hashtable k = some obj) (hf : obj.meta.freq ≤ 3) :
    ∀ n, htLookup ((c.getN k n).s_queue.hashtable) k
      = some ⟨obj.value, ⟨min (obj.meta.freq + n) 3⟩⟩ := by
  intro n
  induction n with
  | zero =>
    show htLookup c.s_queue.hashtable k = some ⟨obj.value, ⟨min (obj.meta.freq + 0) 3⟩⟩
    have harith : min (obj.meta.freq + 0) 3 = obj.meta.freq := by omega
    rw [h, harith]
  | succ n ih =>
    show htLookup (((c.getN k n).get k).2.s_queue.hashtable) k = _
    rw [get_hit_s (c.getN k n) k _ ih]
    show htLookup
      (htModify ((c.getN k n).s_queue.hashtable) k CacheObject.inc_freq) k = _
    rw [htLookup_htModify, if_pos rfl, ih, Option.map_some']
    dsimp only [CacheObject.inc_freq, CacheMetadata.inc_freq]
    have harith : min (min (obj.meta.freq + n) 3 + 1) 3
        = min (obj.meta.freq + (n + 1)) 3 := by omega
    rw [harith]

theorem getN_m_lookup [DecidableEq K] (c : S3FIFO K V) (k : K) (obj : CacheObject V)
    (hs : htLookup c.s_queue.hashtable k = none)
    (hm : htLookup c.m_queue.hashtable k = some obj) (hf : obj.meta.freq ≤ 3) :
    ∀ n, htLookup ((c.getN k n).s_queue.hashtable) k = none ∧
      htLookup ((c.getN k n).m_queue.hashtable) k
        = some ⟨obj.value, ⟨min (obj.meta.freq + n) 3⟩⟩ := by
  intro n
  induction n with
  | zero =>
    refine ⟨hs, ?_⟩
    show htLookup c.m_queue.hashtable k = some ⟨obj.value, ⟨min (obj.meta.freq + 0) 3⟩⟩
    have harith : min (obj.meta.freq + 0) 3 = obj.meta.freq := by omega
    rw [hm, harith]
  | succ n ih =>
    obtain ⟨ihs, ihm⟩ := ih
    rw [show c.getN k (n + 1) = ((c.getN k n).get k).2 from rfl,
      get_hit_m (c.getN k n) k _ ihs ihm]
    refine ⟨ihs, ?_⟩
    show htLookup
      (htModify ((c.getN k n).m_queue.hashtable) k CacheObject.inc_freq) k = _
    rw [htLookup_htModify, if_pos rfl, ihm, Option.map_some']
    dsimp only [CacheObject.inc_freq, CacheMetadata.inc_freq]
    have harith : min (min (obj.meta.freq + n) 3 + 1) 3
        = min (obj.meta.freq + (n + 1)) 3 := by omega
    rw [harith]

/-! ## Claims -/

/-- C1: the claim says every `S3FIFO` state reachable from `new` via `put`
only keeps `size == S.len() + M.len()`.  The code never decrements `size`
(neither `evict_s` nor `evict_m` touches it) and `insert` writes into a full
S ring, so after `new(2, 0.5); put(1,1); put(2,2)` the aggregate `size` is 2
while `S.len() + M.len() = 1 + 0 = 1`: the claimed invariant is violated at a
reachable state.  (The length bounds `S.len() ≤ Cs` etc. do hold here; it is
the size equation that breaks.) -/
theorem c1_size_field_diverges :
    putTrace.map S3FIFO.size = some 2 ∧
      putTrace.map (fun c => c.s_queue.len + c.m_queue.len) = some 1 ∧
      putTrace.map (fun c => c.s_queue.len) = some 1 ∧
      putTrace.map (fun c => c.m_queue.len) = some 0 := by
  decide

/-- C2: the claim says every `put` terminates with at most `Cs + Cm` units of
eviction work.  In fact, once `size == cache_size`, `insert`'s loop
`while is_full() { evict() }` can never exit, because `evict` never changes
`size`: on the reachable full state of `putTrace`, `put(3, 3)` fails to
finish for EVERY fuel bound, i.e. the Rust loop runs forever. -/
theorem c2_full_put_never_terminates (fuel : Nat) :
    putTrace.bind (fun c => c.put fuel 3 3) = none := by
  have h1 : putTrace.map S3FIFO.is_full = some true := by decide
  have h2 : putTrace.map (fun c => htLookup c.s_queue.hashtable 3) = some none := by
    decide
  have h3 : putTrace.map (fun c => htLookup c.m_queue.hashtable 3) = some none := by
    decide
  cases hpt : putTrace with
  | none => rfl
  | some c =>
    rw [hpt] at h1 h2 h3
    simp only [Option.map_some', Option.some.injEq] at h1 h2 h3
    show c.put fuel 3 3 = none
    exact put_none_of_full c fuel 3 3 h1 h2 h3

/-- C3 counterexample: the claim says a duplicate `put` leaves the entry's
frequency counter unchanged.  On `new(2, 0.5)`, `put(0,0)` stores the entry
with frequency 0, but `put(0,1)` goes through `find_mut`, whose `inc_freq`
bumps the counter to 1 while overwriting the value: the counter is NOT
untouched. -/
theorem c3_counterexample :
    (((S3FIFO.new ℕ ℕ 2 (mkRat 1 2)).put 5 0 0).map
        (fun c => (htLookup c.s_queue.hashtable 0).map fun o => o.meta.freq)
      = some (some 0)) ∧
    ((((S3FIFO.new ℕ ℕ 2 (mkRat 1 2)).put 5 0 0).bind (fun c => c.put 5 0 1)).map
        (fun c => (htLookup c.s_queue.hashtable 0).map fun o => (o.value, o.meta.freq))
      = some (some (1, 1))) := by
  decide

/-- C3 (amended): for a key resident in S (resp. in M), `put(k, v)` replaces
the stored value with `v` and increments the entry's saturating frequency
counter (through `find_mut`); the entry's queue position (the key ring),
both hash-table sizes, the other two queues, and the aggregate `size` are
unchanged. -/
theorem c3_dup_put_overwrites [DecidableEq K] [Inhabited K] (c : S3FIFO K V)
    (fuel : Nat) (k : K) (v : V) (obj : CacheObject V) :
    (htLookup c.s_queue.hashtable k = some obj →
      (c.put fuel k v).map (fun x => htLookup x.s_queue.hashtable k)
          = some (some ⟨v, obj.meta.inc_freq⟩) ∧
        (c.put fuel k v).map (fun x => x.s_queue.rb) = some c.s_queue.rb ∧
        (c.put fuel k v).map (fun x => x.s_queue.hashtable.length)
          = some c.s_queue.hashtable.length ∧
        (c.put fuel k v).map S3FIFO.m_queue = some c.m_queue ∧
        (c.put fuel k v).map S3FIFO.g_queue = some c.g_queue ∧
        (c.put fuel k v).map S3FIFO.size = some c.size) ∧
    (htLookup c.s_queue.hashtable k = none → htLookup c.m_queue.hashtable k = some obj →
      (c.put fuel k v).map (fun x => htLookup x.m_queue.hashtable k)
          = some (some ⟨v, obj.meta.inc_freq⟩) ∧
        (c.put fuel k v).map (fun x => x.m_queue.rb) = some c.m_queue.rb ∧
        (c.put fuel k v).map (fun x => x.m_queue.hashtable.length)
          = some c.m_queue.hashtable.length ∧
        (c.put fuel k v).map S3FIFO.s_queue = some c.s_queue ∧
        (c.put fuel k v).map S3FIFO.g_queue = some c.g_queue ∧
        (c.put fuel k v).map S3FIFO.size = some c.size) := by
  constructor
  · intro h
    rw [put_hit_s c fuel k v obj h]
    refine ⟨?_, rfl, ?_, rfl, rfl, rfl⟩
    · show some (htLookup (htModify (htModify c.s_queue.hashtable k CacheObject.inc_freq)
        k fun o => o.set_value v) k) = some (some ⟨v, obj.meta.inc_freq⟩)
      rw [htLookup_htModify, if_pos rfl, htLookup_htModify, if_pos rfl, h]
      rfl
    · show some (htModify (htModify c.s_queue.hashtable k CacheObject.inc_freq)
        k fun o => o.set_value v).length = some c.s_queue.hashtable.length
      rw [length_htModify, length_htModify]
  · intro hs hm
    rw [put_hit_m c fuel k v obj hs hm]
    refine ⟨?_, rfl, ?_, rfl, rfl, rfl⟩
    · show some (htLookup (htModify (htModify c.m_queue.hashtable k CacheObject.inc_freq)
        k fun o => o.set_value v) k) = some (some ⟨v, obj.meta.inc_freq⟩)
      rw [htLookup_htModify, if_pos rfl, htLookup_htModify, if_pos rfl, hm]
      rfl
    · show some (htModify (htModify c.m_queue.hashtable k CacheObject.inc_freq)
        k fun o => o.set_value v).length = some c.m_queue.hashtable.length
      rw [length_htModify, length_htModify]

/-- Witness for the amended C3 theorem at a concrete state: `smallState`
holds key 1 with value 7 and frequency 0 in S; `put 1 42` stores value 42
with frequency 1 and changes nothing else. -/
theorem c3_witness :
    htLookup smallState.s_queue.hashtable 1 = some ⟨7, ⟨0⟩⟩ ∧
      ((smallState.put 0 1 42).map (fun x => htLookup x.s_queue.hashtable 1)
          = some (some ⟨42, CacheMetadata.inc_freq ⟨0⟩⟩) ∧
        (smallState.put 0 1 42).map (fun x => x.s_queue.rb)
          = some smallState.s_queue.rb ∧
        (smallState.put 0 1 42).map (fun x => x.s_queue.hashtable.length)
          = some smallState.s_queue.hashtable.length ∧
        (smallState.put 0 1 42).map S3FIFO.m_queue = some smallState.m_queue ∧
        (smallState.put 0 1 42).map S3FIFO.g_queue = some smallState.g_queue ∧
        (smallState.put 0 1 42).map S3FIFO.size = some smallState.size) :=
  ⟨by decide,
    (c3_dup_put_overwrites smallState 0 1 42 ⟨7, ⟨0⟩⟩).1 (by decide)⟩

/-- C4: if `k` is absent from S and M, present in G, and the cache is not
full, then `put(k, v)` admits the new entry directly into M (fresh entry
with value `v` and frequency 0), leaves S untouched, does not remove the
ghost entry for `k` (it is still present, its counter merely bumped by the
`find` probe), and increments the aggregate `size`. -/
theorem c4_ghost_admission [DecidableEq K] [Inhabited K] (c : S3FIFO K V)
    (fuel : Nat) (k : K) (v : V) (obj : CacheObject V)
    (hs : htLookup c.s_queue.hashtable k = none)
    (hm : htLookup c.m_queue.hashtable k = none)
    (hfull : c.is_full = false)
    (hg : htLookup c.g_queue.hashtable k = some obj) :
    (c.put fuel k v).map (fun x => htLookup x.m_queue.hashtable k)
        = some (some ⟨v, ⟨0⟩⟩) ∧
      (c.put fuel k v).map S3FIFO.s_queue = some c.s_queue ∧
      (c.put fuel k v).map (fun x => (htLookup x.g_queue.hashtable k).isSome)
        = some true ∧
      (c.put fuel k v).map S3FIFO.size = some (c.size + 1) := by
  rw [put_ghost c fuel k v obj hs hm hfull hg]
  refine ⟨?_, rfl, ?_, rfl⟩
  · show some (htLookup (c.m_queue.insert k v).hashtable k) = some (some ⟨v, ⟨0⟩⟩)
    show some (htLookup (htInsertHM c.m_queue.hashtable k ⟨v, ⟨0⟩⟩) k)
      = some (some ⟨v, ⟨0⟩⟩)
    rw [htLookup_htInsertHM_self]
  · show some (htLookup (c.g_queue.inc_freq k).hashtable k).isSome = some true
    show some (htLookup (htModify c.g_queue.hashtable k CacheObject.inc_freq) k).isSome
      = some true
    rw [htLookup_htModify, if_pos rfl, hg]
    rfl

/-- Witness for C4 at a concrete state: `ghostState` has key 1 only in its
ghost queue and is not full; `put 1 99` admits `(1, 99)` into M, keeps the
ghost entry, leaves S alone and bumps `size` to 1. -/
theorem c4_witness :
    (htLookup ghostState.s_queue.hashtable 1 = none ∧
      htLookup ghostState.m_queue.hashtable 1 = none ∧
      ghostState.is_full = false ∧
      htLookup ghostState.g_queue.hashtable 1 = some ⟨7, ⟨0⟩⟩) ∧
    ((ghostState.put 0 1 99).map (fun x => htLookup x.m_queue.hashtable 1)
        = some (some ⟨99, ⟨0⟩⟩) ∧
      (ghostState.put 0 1 99).map S3FIFO.s_queue = some ghostState.s_queue ∧
      (ghostState.put 0 1 99).map (fun x => (htLookup x.g_queue.hashtable 1).isSome)
        = some true ∧
      (ghostState.put 0 1 99).map S3FIFO.size = some (ghostState.size + 1)) :=
  ⟨⟨by decide, by decide, by decide, by decide⟩,
    c4_ghost_admission ghostState 0 1 99 ⟨7, ⟨0⟩⟩ (by decide) (by decide) (by decide)
      (by decide)⟩

/-- C5: the saturating counter: `inc_freq` saturates at `FREQ_MAX = 3`,
`desc_freq` saturates at 0, and after `n` `get(k)` hits on an entry resident
in S (resp. resident in M) with a fresh counter, the counter equals
`min(n, 3)`. -/
theorem c5_freq_saturation [DecidableEq K] (c : S3FIFO K V) (k : K)
    (obj : CacheObject V) (n : Nat) :
    ((∀ m : CacheMetadata, m.inc_freq.freq ≤ 3 ∧
        (m.freq < 3 → m.inc_freq.freq = m.freq + 1)) ∧
      ∀ m : CacheMetadata, m.desc_freq.freq = m.freq - 1) ∧
    (htLookup c.s_queue.hashtable k = some obj → obj.meta.freq = 0 →
      (htLookup ((c.getN k n).s_queue.hashtable) k).map (fun o => o.meta.freq)
        = some (min n 3)) ∧
    (htLookup c.s_queue.hashtable k = none →
      htLookup c.m_queue.hashtable k = some obj → obj.meta.freq = 0 →
      (htLookup ((c.getN k n).m_queue.hashtable) k).map (fun o => o.meta.freq)
        = some (min n 3)) := by
  refine ⟨⟨?_, ?_⟩, ?_, ?_⟩
  · intro m
    constructor
    · show min (m.freq + 1) 3 ≤ 3
      omega
    · intro h
      show min (m.freq + 1) 3 = m.freq + 1
      omega
  · intro m
    unfold CacheMetadata.desc_freq
    by_cases h : m.freq ≠ 0
    · rw [if_pos h]
    · rw [if_neg h]
      omega
  · intro h hf
    rw [getN_s_lookup c k obj h (by omega) n]
    show some (min (obj.meta.freq + n) 3) = some (min n 3)
    rw [hf, Nat.zero_add]
  · intro hs hm hf
    rw [(getN_m_lookup c k obj hs hm (by omega) n).2]
    show some (min (obj.meta.freq + n) 3) = some (min n 3)
    rw [hf, Nat.zero_add]

/-- Witness for C5: key 1 sits in `smallState`'s S queue with frequency 0;
after 5 hits the counter reads `min 5 3 = 3`. -/
theorem c5_witness :
    htLookup smallState.s_queue.hashtable 1 = some ⟨7, ⟨0⟩⟩ ∧
      (htLookup ((smallState.getN 1 5).s_queue.hashtable) 1).map (fun o => o.meta.freq)
        = some (min 5 3) :=
  ⟨by decide, (c5_freq_saturation smallState 1 ⟨7, ⟨0⟩⟩ 5).2.1 (by decide) (by decide)⟩

/-- C6 counterexample: the claim's only hypothesis is that `insert` is never
called while `is_full()`.  Inserting the same key twice into a capacity-3
cache never hits `is_full()`, yet leaves the ring with 2 slots and the
mapping with 1 entry: `ring.len() ≠ mapping.len()`. -/
theorem c6_counterexample :
    validFOpsFull (FIFOCache.new ℕ ℕ 3) [FOp.insert 0 0, FOp.insert 0 1] = true ∧
      (runFOps (FIFOCache.new ℕ ℕ 3) [FOp.insert 0 0, FOp.insert 0 1]).rb.len = 2 ∧
      (runFOps (FIFOCache.new ℕ ℕ 3) [FOp.insert 0 0, FOp.insert 0 1]).hashtable.length
        = 1 := by
  decide

/-- C6 (amended): for every sequence of `FIFOCache` operations that never
calls `insert`/`insert_with_meta` while `is_full()` holds NOR with a key
already present in the mapping, the ring length equals the mapping length
and the set of keys stored in the ring equals the mapping's key set. -/
theorem c6_fifo_invariant [DecidableEq K] [Inhabited K] (cap : Nat) (hcap : 0 < cap)
    (ops : List (FOp K V))
    (hvalid : validFOps (FIFOCache.new K V cap) ops = true) :
    (runFOps (FIFOCache.new K V cap) ops).rb.len
        = (runFOps (FIFOCache.new K V cap) ops).hashtable.length ∧
      (runFOps (FIFOCache.new K V cap) ops).rb.get_values.toFinset
        = ((runFOps (FIFOCache.new K V cap) ops).hashtable.map Prod.fst).toFinset := by
  obtain ⟨hwf, hnd, hknd, hlen, hiff⟩ :=
    cacheInv_runFOps ops (FIFOCache.new K V cap) (cacheInv_new K V cap hcap) hvalid
  constructor
  · exact hlen
  · rw [get_values_eq_window _ hwf]
    ext j
    simp only [List.mem_toFinset]
    rw [hiff j, htLookup_isSome_iff_mem]
    exact Iff.rfl

/-- Witness for the amended C6 theorem on a concrete valid trace. -/
theorem c6_witness :
    (0 < 3 ∧ validFOps (FIFOCache.new ℕ ℕ 3) [FOp.insert 0 0, FOp.find 0, FOp.evict]
        = true) ∧
      ((runFOps (FIFOCache.new ℕ ℕ 3) [FOp.insert 0 0, FOp.find 0, FOp.evict]).rb.len
          = (runFOps (FIFOCache.new ℕ ℕ 3)
              [FOp.insert 0 0, FOp.find 0, FOp.evict]).hashtable.length ∧
        (runFOps (FIFOCache.new ℕ ℕ 3)
            [FOp.insert 0 0, FOp.find 0, FOp.evict]).rb.get_values.toFinset
          = ((runFOps (FIFOCache.new ℕ ℕ 3)
              [FOp.insert 0 0, FOp.find 0, FOp.evict]).hashtable.map Prod.fst).toFinset) :=
  ⟨⟨by decide, by decide⟩,
    c6_fifo_invariant 3 (by decide) [FOp.insert 0 0, FOp.find 0, FOp.evict] (by decide)⟩

/-- C7: the claim says `new_with_default_ratio(total)` constructs and RETURNS
the same cache `new(total, 0.1)` returns.  The source's body is
`Self::new(cache_size, 0.1);` — with a trailing semicolon and unit return
type — so the constructed cache is dropped and the caller receives `()`, not
a cache (spec §9 itself flags this as a latent bug).  This theorem evaluates
the code at `total = 100`: the call returns `()`, while `new(100, 0.1)` does
construct a cache (with `Cs = 10`), which the unit return cannot be. -/
theorem c7_returns_unit_not_cache :
    S3FIFO.new_with_default_ratio ℕ ℕ 100 = () ∧
      (S3FIFO.new ℕ ℕ 100 (mkRat 1 10)).small_cache_capacity = 10 ∧
      (S3FIFO.new ℕ ℕ 100 (mkRat 1 10)).size = 0 := by
  refine ⟨rfl, by decide, rfl⟩

/-- C8: the claim says `peak_back` returns a copy of the NEWEST element.
`peak_front` does return the oldest and both return `None` on an empty
buffer, but `peak_back` reads `buffer[tail]`, the slot one past the newest
element: after a single `push_back(5)` into a fresh capacity-3 buffer it
returns the never-written default `0`, while the newest element (as
`pop_back` confirms) is `5`. -/
theorem c8_peak_back_reads_wrong_slot :
    ((RingBuffer.new ℕ 3).push_back 5).peak_front = some 5 ∧
      ((RingBuffer.new ℕ 3).push_back 5).pop_back.1 = some 5 ∧
      ((RingBuffer.new ℕ 3).push_back 5).peak_back = some 0 ∧
      (RingBuffer.new ℕ 3).peak_front = none ∧
      (RingBuffer.new ℕ 3).peak_back = none := by
  decide

/-- C9: pushing `c + 1` elements into a fresh `RingBuffer` of capacity
`c ≥ 1` leaves `len() = c`; the overflowing push silently overwrites the
head, so the first element pushed is gone and the remaining `c` elements
appear in insertion order. -/
theorem c9_push_overwrites_oldest (c : Nat) (hc : 1 ≤ c) (l : List ℕ)
    (hl : l.length = c + 1) :
    ((RingBuffer.new ℕ c).pushAll l).len = c ∧
      ((RingBuffer.new ℕ c).pushAll l).get_values = l.drop 1 := by
  have hne : l ≠ [] := by
    intro h
    rw [h] at hl
    simp at hl
  obtain ⟨l', x, hsplit⟩ : ∃ l' x, l = l' ++ [x] :=
    ⟨l.dropLast, l.getLast hne, (List.dropLast_append_getLast hne).symm⟩
  have hlen' : l'.length = c := by
    rw [hsplit] at hl
    simp at hl
    omega
  have hwf0 := WF_new ℕ c (by omega)
  have h0 : (RingBuffer.new ℕ c).size + l'.length ≤ (RingBuffer.new ℕ c).capacity := by
    show 0 + l'.length ≤ c
    omega
  obtain ⟨hwf1, hsz1, hcap1, hwin1⟩ := pushAll_spec l' (RingBuffer.new ℕ c) hwf0 h0
  rw [window_new] at hwin1
  rw [List.nil_append] at hwin1
  have hfull1 : ((RingBuffer.new ℕ c).pushAll l').size
      = ((RingBuffer.new ℕ c).pushAll l').capacity := by
    rw [hsz1, hcap1]
    show 0 + l'.length = c
    omega
  have hstep : (RingBuffer.new ℕ c).pushAll l
      = ((RingBuffer.new ℕ c).pushAll l').push_back x := by
    rw [hsplit]
    unfold RingBuffer.pushAll
    rw [List.foldl_append]
    rfl
  constructor
  · rw [hstep]
    show (((RingBuffer.new ℕ c).pushAll l').push_back x).size = c
    rw [push_back_size, if_pos hfull1, hsz1]
    show 0 + l'.length = c
    omega
  · rw [hstep, get_values_eq_window _ (WF_push_back _ _ hwf1),
      window_push_back_full _ _ hwf1 hfull1, hwin1, hsplit,
      List.drop_append_of_le_length (by omega)]

/-- Witness for C9 at capacity 3 with pushes `[0, 1, 2, 3]`. -/
theorem c9_witness :
    (1 ≤ 3 ∧ ([0, 1, 2, 3] : List ℕ).length = 3 + 1) ∧
      (((RingBuffer.new ℕ 3).pushAll [0, 1, 2, 3]).len = 3 ∧
        ((RingBuffer.new ℕ 3).pushAll [0, 1, 2, 3]).get_values
          = ([0, 1, 2, 3] : List ℕ).drop 1) :=
  ⟨⟨by decide, by decide⟩, c9_push_overwrites_oldest 3 (by decide) [0, 1, 2, 3] (by decide)⟩

/-- C10: `get` on a key absent from both S and M returns `none` and leaves
the whole cache state unchanged — the `inc_freq` performed by each probing
`find` is a no-op on an absent key, so no counter, queue or length changes
even though `get` takes mutable access. -/
theorem c10_get_absent_frame [DecidableEq K] (c : S3FIFO K V) (k : K)
    (hs : htLookup c.s_queue.hashtable k = none)
    (hm : htLookup c.m_queue.hashtable k = none) :
    c.get k = (none, c) :=
  get_miss c k hs hm

/-- Witness for C10: key 9 is nowhere in `smallState`; `get 9` misses and
returns the state unchanged. -/
theorem c10_witness :
    (htLookup smallState.s_queue.hashtable 9 = none ∧
      htLookup smallState.m_queue.hashtable 9 = none) ∧
      smallState.get 9 = (none, smallState) :=
  ⟨⟨by decide, by decide⟩, c10_get_absent_frame smallState 9 (by decide) (by decide)⟩

/-- Witness for C2 at a concrete (generous) fuel bound: even 1000 loop
iterations do not let `put(3, 3)` finish on the full cache. -/
theorem c2_witness : putTrace.bind (fun c => c.put 1000 3 3) = none :=
  c2_full_put_never_terminates 1000
